import Mathlib

set_option maxHeartbeats 1000000
set_option maxRecDepth 8192

/-!
Verification development for the onKorea announcement-extraction scripts
(src/junggu.py, src/pr-1.py, src/pr-2.py).  Python strings are modelled as
Lean `String`s (lists of Unicode code points, matching Python's `len` and
slicing, which are code-point based); regex operations are embedded as
explicit character-list functions, faithful to the regexes on the inputs the
scripts feed them (line-split text, so the inputs contain no newline unless
stated otherwise; any such assumption is noted at the definition).
-/

namespace OnKorea

/-- The characters of the crawlers' ZERO_WIDTH regex class
(junggu.py line 30, pr-1.py line 60, pr-2.py line 22). -/
def zwList : List Char := ['\u200B', '\u200C', '\u200D', '\u2060', '\uFEFF']

def isZW (c : Char) : Bool := zwList.contains c

/-- Python's whitespace set: the characters matched by regex `\s` on `str`
and stripped by `str.strip()`. -/
def pyWsList : List Char := [' ', '\t', '\n', '\r', '\x0B', '\x0C', '\x1C', '\x1D', '\x1E', '\x1F', '\x85', '\u00A0', '\u1680', '\u2000', '\u2001', '\u2002', '\u2003', '\u2004', '\u2005', '\u2006', '\u2007', '\u2008', '\u2009', '\u200A', '\u2028', '\u2029', '\u202F', '\u205F', '\u3000']

def isPyWs (c : Char) : Bool := pyWsList.contains c

/-- Drop the longest suffix whose characters satisfy `p`. -/
def dropEndWhile (p : Char → Bool) (l : List Char) : List Char :=
  (l.reverse.dropWhile p).reverse

/-- Python `str.strip()` on a character list. -/
def pyStripL (l : List Char) : List Char :=
  dropEndWhile isPyWs (l.dropWhile isPyWs)

/-- Python `str.strip()`. -/
def pyStrip (s : String) : String := ⟨pyStripL s.data⟩

/-- Python `ZERO_WIDTH.sub("", s)`: a global substitution of single
characters by the empty string is a filter. -/
def removeZW (l : List Char) : List Char := l.filter (fun c => !(isZW c))

/-- U+00A0 and U+3000 to plain space (all three scripts'
`normalize_key` / `_canon_text`). -/
def nbspToSpace (l : List Char) : List Char :=
  l.map (fun c => if c = '\u00A0' || c = '\u3000' then ' ' else c)

/-- `sub` occurs as a contiguous run inside `l`. -/
def containsSubL (sub : List Char) : List Char → Bool
  | [] => List.isPrefixOf sub []
  | c :: cs => List.isPrefixOf sub (c :: cs) || containsSubL sub cs

/-- Python's `sub in s` (substring containment). -/
def containsSub (s sub : String) : Bool := containsSubL sub.data s.data

/-! ## Key normalization, keyword-inclusion variant (junggu.py `normalize_key`, lines 36-44) -/

/-- The decorative-symbol class of junggu.py line 40:
`[★☆•·▶▷■○●※\-\=\+\(\)\[\]\{\}<>]`. -/
def juDecor : List Char :=
  ['★', '☆', '•', '·', '▶', '▷', '■', '○', '●', '※',
   '-', '=', '+', '(', ')', '[', ']', '\x7B', '\x7D', '<', '>']

/-- junggu.py `normalize_key` (lines 36-44).  The final
`re.sub(r"[:0-9].*$", "", k)` runs on a string from which every `\s`
character (in particular every newline) has just been removed, so it
deletes everything from the first digit or colon to the end of the string;
it is therefore a `takeWhile`. -/
def junggu_normalize_key (s : String) : String :=
  let l := removeZW s.data
  let l := nbspToSpace l
  let l := l.filter (fun c => !(juDecor.contains c))
  let l := l.filter (fun c => !(isPyWs c))
  let l := l.takeWhile (fun c => !(c.isDigit || c = ':'))
  pyStrip ⟨l⟩

/-- junggu.py `auto_map_key` (lines 48-62): keyword-inclusion classification,
first matching group wins. -/
def auto_map_key (pre_norm : String) : Option String :=
  if ["대상", "자격"].any (fun w => containsSub pre_norm w) then some "target"
  else if ["기간", "일시", "시간", "기한", "일정"].any (fun w => containsSub pre_norm w) then
    some "period"
  else if ["방법", "금액"].any (fun w => containsSub pre_norm w) then some "method"
  else if ["문의", "연락처", "전화번호", "담당", "접수"].any (fun w => containsSub pre_norm w) then
    some "contact"
  else if ["장소", "위치", "지역", "운영장소", "현황"].any (fun w => containsSub pre_norm w) then
    some "location"
  else if ["내용", "소개", "개요", "설명", "보장내용", "지원내용", "사업내용"].any
      (fun w => containsSub pre_norm w) then
    some "content"
  else none

/-! ## Key normalization, alias-table variant (pr-1.py `normalize_key`, lines 191-197;
pr-2.py lines 117-123 are character-for-character identical) -/

/-- The decorative class of pr-1.py line 194: `[★☆•·\[\](){}]`. -/
def prDecor : List Char := ['★', '☆', '•', '·', '[', ']', '(', ')', '\x7B', '\x7D']

/-- The dash class of pr-1.py line 195: `[-–—]`. -/
def prDash : List Char := ['-', '–', '—']

/-- pr-1.py `normalize_key` (lines 191-197); also pr-2.py's. -/
def pr1_normalize_key (s : String) : String :=
  let l := removeZW s.data
  let l := nbspToSpace l
  let l := l.filter (fun c => !(prDecor.contains c))
  let l := l.filter (fun c => !(prDash.contains c))
  let l := l.filter (fun c => !(isPyWs c))
  ⟨l⟩

/-! ## Basic membership lemmas -/

theorem mem_dropEndWhile {p : Char → Bool} {l : List Char} {c : Char}
    (h : c ∈ dropEndWhile p l) : c ∈ l := by
  unfold dropEndWhile at h
  have h1 : c ∈ l.reverse.dropWhile p := List.mem_reverse.mp h
  exact List.mem_reverse.mp ((List.dropWhile_sublist p).mem h1)

theorem mem_pyStripL {l : List Char} {c : Char} (h : c ∈ pyStripL l) : c ∈ l :=
  (List.dropWhile_sublist isPyWs).mem (mem_dropEndWhile h)

/-- A character that is a digit or a colon is not contained in a character
list all of whose members are neither. -/
theorem charClass_contains_false {L : List Char} {c : Char}
    (hall : ∀ x ∈ L, ¬(x.isDigit = true ∨ x = ':'))
    (hc : c.isDigit = true ∨ c = ':') : L.contains c = false := by
  have hnm : c ∉ L := fun hmem => hall c hmem hc
  simpa using hnm

theorem mem_nbspToSpace_iff {l : List Char} {c : Char}
    (h1 : c ≠ ' ') (h2 : c ≠ '\u00A0') (h3 : c ≠ '\u3000') :
    c ∈ nbspToSpace l ↔ c ∈ l := by
  unfold nbspToSpace
  rw [List.mem_map]
  constructor
  · rintro ⟨a, ha, hfa⟩
    by_cases hc : a = '\u00A0' ∨ a = '\u3000'
    · exfalso
      apply h1
      rw [← hfa]
      rcases hc with h | h <;> simp [h]
    · push_neg at hc
      rw [← hfa]
      simpa [hc.1, hc.2] using ha
  · intro hmem
    refine ⟨c, hmem, ?_⟩
    simp [h2, h3]

/-! ## Claim C8 -/

/-- C8, counterexample: the claim says key normalization is shared by both
strategies and truncates at the first digit or colon, so that "문의:" and
"문의1" both normalize to "문의".  The alias-table strategy's `normalize_key`
(pr-1.py lines 191-197) performs no such truncation: "문의1" normalizes to
itself, not to "문의". -/
theorem claim_C8_counterexample :
    pr1_normalize_key "문의1" = "문의1" ∧ pr1_normalize_key "문의1" ≠ "문의" := by
  constructor
  · decide
  · decide

/-- C8, amended: only the keyword-inclusion strategy's `normalize_key`
(junggu.py lines 36-44) truncates at the first digit or colon: its output
never contains a digit or a colon, and both "문의:" and "문의1" normalize to
"문의" there.  The alias-table strategy's `normalize_key` (pr-1.py lines
191-197) does not truncate: it preserves every digit and colon occurrence of
its input. -/
theorem claim_C8 :
    (∀ s : String, ∀ c ∈ (junggu_normalize_key s).data, c.isDigit = false ∧ c ≠ ':')
    ∧ junggu_normalize_key "문의:" = "문의"
    ∧ junggu_normalize_key "문의1" = "문의"
    ∧ ∀ (s : String) (c : Char), c.isDigit = true ∨ c = ':' →
        (c ∈ (pr1_normalize_key s).data ↔ c ∈ s.data) := by
  refine ⟨?_, by decide, by decide, ?_⟩
  · intro s c hc
    unfold junggu_normalize_key pyStrip at hc
    have h1 : c ∈ List.takeWhile (fun c => !(c.isDigit || c = ':'))
        (List.filter (fun c => !(isPyWs c))
          (List.filter (fun c => !(juDecor.contains c)) (nbspToSpace (removeZW s.data)))) :=
      mem_pyStripL hc
    have h2 := List.mem_takeWhile_imp h1
    simp only [Bool.not_eq_true', Bool.or_eq_false_iff] at h2
    refine ⟨h2.1, ?_⟩
    intro hcol
    subst hcol
    simp at h2
  · intro s c hc
    have hneq : c ≠ ' ' ∧ c ≠ '\u00A0' ∧ c ≠ '\u3000' := by
      rcases hc with h | h
      · refine ⟨?_, ?_, ?_⟩ <;> (intro he; subst he; simp at h)
      · subst h; exact ⟨by decide, by decide, by decide⟩
    have hws : isPyWs c = false :=
      charClass_contains_false (by decide) hc
    have hdec : prDecor.contains c = false :=
      charClass_contains_false (by decide) hc
    have hdsh : prDash.contains c = false :=
      charClass_contains_false (by decide) hc
    have hzw : isZW c = false :=
      charClass_contains_false (by decide) hc
    unfold pr1_normalize_key removeZW
    show c ∈ List.filter _ _ ↔ _
    have hdecP : c ∉ prDecor := fun hm =>
      (by decide : ∀ x ∈ prDecor, ¬(x.isDigit = true ∨ x = ':')) c hm hc
    have hdshP : c ∉ prDash := fun hm =>
      (by decide : ∀ x ∈ prDash, ¬(x.isDigit = true ∨ x = ':')) c hm hc
    have hzwP : c ∉ zwList := fun hm =>
      (by decide : ∀ x ∈ zwList, ¬(x.isDigit = true ∨ x = ':')) c hm hc
    rw [List.mem_filter, List.mem_filter, List.mem_filter,
      mem_nbspToSpace_iff hneq.1 hneq.2.1 hneq.2.2, List.mem_filter]
    simp [hws, hdec, hdsh, hzw, hdecP, hdshP, hzwP, isZW]

/-- Witness for `claim_C8` at a concrete input. -/
theorem claim_C8_witness :
    ('1'.isDigit = true ∨ '1' = ':')
    ∧ ('1' ∈ (pr1_normalize_key "문의1").data ↔ '1' ∈ "문의1".data) :=
  ⟨Or.inl (by decide), claim_C8.2.2.2 "문의1" '1' (Or.inl (by decide))⟩

/-! ## Record canonicalizer: pr-1.py `_canon_text` (lines 343-352);
pr-2.py `_canon_text` (lines 218-226) is identical -/

def isST (c : Char) : Bool := c = ' ' || c = '\t'

/-- `re.sub(r"[ \t]+", " ", s)`: each maximal run of spaces/tabs becomes one
space. -/
def collapseST : List Char → List Char
  | [] => []
  | c :: cs =>
    if isST c then ' ' :: collapseST (cs.dropWhile isST)
    else c :: collapseST cs
termination_by l => l.length
decreasing_by
  · simp only [List.length_cons]
    exact Nat.lt_succ_of_le (List.dropWhile_sublist isST).length_le
  · simp

/-- `re.sub(r"\s*\n\s*", "\n", s)`: the engine finds each maximal whitespace
run containing a newline, consumes the whole run (greedy `\s*` on both sides
of the `\n`) and replaces it by one newline; whitespace runs without a
newline are left as they are. -/
def collapseWsNl : List Char → List Char
  | [] => []
  | c :: cs =>
    if isPyWs c then
      (if '\n' ∈ c :: cs.takeWhile isPyWs then ['\n'] else c :: cs.takeWhile isPyWs)
        ++ collapseWsNl (cs.dropWhile isPyWs)
    else c :: collapseWsNl cs
termination_by l => l.length
decreasing_by
  · simp only [List.length_cons]
    exact Nat.lt_succ_of_le (List.dropWhile_sublist isPyWs).length_le
  · simp

/-- `re.sub(r"\n{2,}", "\n", s)`: each run of newlines becomes a single
newline (runs of length one are unchanged by the regex, and unchanged
here). -/
def collapseNl2 : List Char → List Char
  | [] => []
  | c :: cs =>
    if c = '\n' then '\n' :: collapseNl2 (cs.dropWhile (fun x => x == '\n'))
    else c :: collapseNl2 cs
termination_by l => l.length
decreasing_by
  · simp only [List.length_cons]
    exact Nat.lt_succ_of_le (List.dropWhile_sublist (fun x => x == '\n')).length_le
  · simp

/-- pr-1.py `_canon_text` (lines 343-352) on character lists, stage by stage
in source order. -/
def canonTextL (l : List Char) : List Char :=
  pyStripL (collapseNl2 (collapseWsNl (collapseST (nbspToSpace (removeZW l)))))

/-- pr-1.py `_canon_text` (lines 343-352). -/
def canonText (s : String) : String := ⟨canonTextL s.data⟩

/-- Adjacent space/tab characters are forbidden. -/
def stR (a b : Char) : Prop := ¬(isST a = true ∧ isST b = true)

/-- A newline may not be adjacent to any whitespace character. -/
def nlR (a b : Char) : Prop := ¬(isPyWs a = true ∧ isPyWs b = true ∧ (a = '\n' ∨ b = '\n'))

/-- Fixed points of `_canon_text`: no zero-width marks, no NBSP/ideographic
spaces, no tabs, no two adjacent spaces, no whitespace adjacent to a
newline, and no leading or trailing whitespace. -/
def CanonGood (l : List Char) : Prop :=
  (∀ c ∈ l, isZW c = false) ∧
  (∀ c ∈ l, c ≠ ' ' ∧ c ≠ '　') ∧
  (∀ c ∈ l, c ≠ '\t') ∧
  List.Chain' stR l ∧
  List.Chain' nlR l ∧
  (∀ c : Char, l.head? = some c → isPyWs c = false) ∧
  (∀ c : Char, l.getLast? = some c → isPyWs c = false)

/-! ### Generic helper lemmas -/

theorem head_dropWhile_false {p : Char → Bool} {l : List Char} {c : Char}
    (h : (l.dropWhile p).head? = some c) : p c = false := by
  induction l with
  | nil => simp at h
  | cons a as ih =>
    rw [List.dropWhile_cons] at h
    by_cases hp : p a
    · rw [if_pos hp] at h
      exact ih h
    · rw [if_neg hp] at h
      simp only [List.head?_cons, Option.some.injEq] at h
      subst h
      simpa using hp

theorem head_of_isPrefix {t l : List Char} (h : List.IsPrefix t l) {c : Char}
    (hc : t.head? = some c) : l.head? = some c := by
  rcases h with ⟨u, hu⟩
  subst hu
  cases t with
  | nil => simp at hc
  | cons a as => simpa using hc

theorem dropEndWhile_isPrefix (p : Char → Bool) (l : List Char) :
    List.IsPrefix (dropEndWhile p l) l := by
  unfold dropEndWhile
  have h := @List.reverse_suffix _ ((l.reverse.dropWhile p).reverse) l
  rw [List.reverse_reverse] at h
  exact h.mp (List.dropWhile_suffix p)

theorem pyStripL_isInfix (l : List Char) : List.IsInfix (pyStripL l) l := by
  unfold pyStripL
  exact List.IsPrefix.isInfix (dropEndWhile_isPrefix isPyWs (l.dropWhile isPyWs)) |>.trans
    (List.IsSuffix.isInfix (List.dropWhile_suffix isPyWs))

theorem head_pyStripL_false {l : List Char} {c : Char}
    (h : (pyStripL l).head? = some c) : isPyWs c = false := by
  unfold pyStripL at h
  exact head_dropWhile_false (head_of_isPrefix (dropEndWhile_isPrefix _ _) h)

theorem getLast_pyStripL_false {l : List Char} {c : Char}
    (h : (pyStripL l).getLast? = some c) : isPyWs c = false := by
  unfold pyStripL dropEndWhile at h
  rw [← List.head?_reverse, List.reverse_reverse] at h
  exact head_dropWhile_false h

theorem st_imp_ws {c : Char} (h : isST c = true) : isPyWs c = true := by
  rcases (by simpa [isST] using h : c = ' ' ∨ c = '\t') with h | h <;> subst h <;> decide

/-! ### Each stage is the identity on `CanonGood` lists -/

theorem removeZW_eq_self {l : List Char} (h : ∀ c ∈ l, isZW c = false) :
    removeZW l = l := by
  unfold removeZW
  rw [List.filter_eq_self]
  intro a ha
  simp [h a ha]

theorem nbspToSpace_eq_self {l : List Char} (h : ∀ c ∈ l, c ≠ ' ' ∧ c ≠ '　') :
    nbspToSpace l = l := by
  unfold nbspToSpace
  have h2 : l.map (fun c => if c = ' ' || c = '　' then ' ' else c) = l.map id :=
    List.map_congr_left (fun a ha => by simp [(h a ha).1, (h a ha).2])
  rw [h2, List.map_id]

theorem collapseST_eq_self {l : List Char} (hTab : ∀ c ∈ l, c ≠ '\t')
    (hch : List.Chain' stR l) : collapseST l = l := by
  induction l using collapseST.induct with
  | case1 => rw [collapseST]
  | case2 d ds hd ih =>
    rw [collapseST, if_pos hd]
    have hd' : d = ' ' := by
      rcases (by simpa [isST] using hd : d = ' ' ∨ d = '\t') with h | h
      · exact h
      · exact absurd h (hTab d (by simp))
    have hdrop : ds.dropWhile isST = ds := by
      cases ds with
      | nil => rfl
      | cons e es =>
        have hR : stR d e := (List.chain'_cons.mp hch).1
        have he : isST e = false := by
          by_contra hcon
          exact hR ⟨hd, by simpa using hcon⟩
        rw [List.dropWhile_cons, if_neg (by simp [he])]
    rw [hdrop] at ih ⊢
    rw [ih (fun c hc => hTab c (List.mem_cons_of_mem _ hc)) hch.tail, hd']
  | case3 d ds hd ih =>
    rw [collapseST, if_neg hd]
    rw [ih (fun c hc => hTab c (List.mem_cons_of_mem _ hc)) hch.tail]

theorem no_nl_in_ws_run {a : Char} {l : List Char} (hch : List.Chain' nlR (a :: l))
    (ha : isPyWs a = true) (hna : a ≠ '\n') : '\n' ∉ l.takeWhile isPyWs := by
  induction l generalizing a with
  | nil => simp
  | cons b bs ih =>
    have hR : nlR a b := (List.chain'_cons.mp hch).1
    by_cases hb : isPyWs b = true
    · have hbn : b ≠ '\n' := by
        intro he
        exact hR ⟨ha, hb, Or.inr he⟩
      rw [List.takeWhile_cons, if_pos hb]
      intro hmem
      rcases List.mem_cons.mp hmem with h | h
      · exact hbn h.symm
      · exact ih (List.chain'_cons.mp hch).2 hb hbn h
    · rw [List.takeWhile_cons, if_neg (by simpa using hb)]
      simp

theorem collapseWsNl_eq_self {l : List Char} (hch : List.Chain' nlR l) :
    collapseWsNl l = l := by
  induction l using collapseWsNl.induct with
  | case1 => rw [collapseWsNl]
  | case2 d ds hd ih =>
    rw [collapseWsNl, if_pos hd]
    by_cases hdn : d = '\n'
    · subst hdn
      have hds : ∀ e : Char, ds.head? = some e → isPyWs e = false := by
        intro e he
        cases ds with
        | nil => simp at he
        | cons f fs =>
          simp only [List.head?_cons, Option.some.injEq] at he
          rw [← he]
          have hR : nlR '\n' f := (List.chain'_cons.mp hch).1
          by_contra hcon
          exact hR ⟨by decide, by simpa using hcon, Or.inl rfl⟩
      have htw : ds.takeWhile isPyWs = [] := by
        cases ds with
        | nil => rfl
        | cons f fs =>
          rw [List.takeWhile_cons, if_neg (by simp [hds f rfl])]
      have hdr : ds.dropWhile isPyWs = ds := by
        cases ds with
        | nil => rfl
        | cons f fs =>
          rw [List.dropWhile_cons, if_neg (by simp [hds f rfl])]
      rw [hdr] at ih
      rw [htw, hdr, if_pos (by simp), ih hch.tail]
      rfl
    · have hnn : '\n' ∉ d :: ds.takeWhile isPyWs := by
        intro hmem
        rcases List.mem_cons.mp hmem with h | h
        · exact hdn h.symm
        · exact no_nl_in_ws_run hch hd hdn h
      rw [if_neg hnn, ih (hch.suffix ((List.dropWhile_suffix isPyWs).trans (List.suffix_cons d ds)))]
      rw [List.cons_append, List.takeWhile_append_dropWhile]
  | case3 d ds hd ih =>
    rw [collapseWsNl, if_neg hd, ih hch.tail]

theorem collapseNl2_eq_self {l : List Char} (hch : List.Chain' nlR l) :
    collapseNl2 l = l := by
  induction l using collapseNl2.induct with
  | case1 => rw [collapseNl2]
  | case2 ds ih =>
    rw [collapseNl2, if_pos rfl]
    have hdr : ds.dropWhile (fun x => x == '\n') = ds := by
      cases ds with
      | nil => rfl
      | cons f fs =>
        have hR : nlR '\n' f := (List.chain'_cons.mp hch).1
        have hf : f ≠ '\n' := by
          intro he
          exact hR ⟨by decide, by rw [he]; decide, Or.inl rfl⟩
        rw [List.dropWhile_cons, if_neg (by simp [hf])]
    rw [hdr] at ih
    rw [hdr, ih hch.tail]
  | case3 d ds hd ih =>
    rw [collapseNl2, if_neg hd, ih hch.tail]

theorem pyStripL_eq_self {l : List Char}
    (hh : ∀ c : Char, l.head? = some c → isPyWs c = false)
    (hl : ∀ c : Char, l.getLast? = some c → isPyWs c = false) : pyStripL l = l := by
  unfold pyStripL dropEndWhile
  have h1 : l.dropWhile isPyWs = l := by
    cases l with
    | nil => rfl
    | cons c cs => rw [List.dropWhile_cons, if_neg (by simp [hh c rfl])]
  rw [h1]
  have h2 : l.reverse.dropWhile isPyWs = l.reverse := by
    cases hr : l.reverse with
    | nil => rfl
    | cons c cs =>
      have hc : l.getLast? = some c := by
        rw [← List.head?_reverse, hr]
        rfl
      rw [List.dropWhile_cons, if_neg (by simp [hl c hc])]
  rw [h2, List.reverse_reverse]

theorem canonTextL_eq_self {l : List Char} (h : CanonGood l) : canonTextL l = l := by
  obtain ⟨h1, h2, h3, h4, h5, h6, h7⟩ := h
  unfold canonTextL
  rw [removeZW_eq_self h1, nbspToSpace_eq_self h2, collapseST_eq_self h3 h4,
    collapseWsNl_eq_self h5, collapseNl2_eq_self h5, pyStripL_eq_self h6 h7]

/-! ### The output of `_canon_text` is `CanonGood` -/

theorem mem_collapseST {c : Char} {l : List Char} (h : c ∈ collapseST l) :
    c = ' ' ∨ c ∈ l := by
  induction l using collapseST.induct with
  | case1 => simp [collapseST] at h
  | case2 d ds hd ih =>
    rw [collapseST, if_pos hd] at h
    rcases List.mem_cons.mp h with h | h
    · exact Or.inl h
    · rcases ih h with h2 | h2
      · exact Or.inl h2
      · exact Or.inr (List.mem_cons_of_mem _ ((List.dropWhile_sublist _).mem h2))
  | case3 d ds hd ih =>
    rw [collapseST, if_neg hd] at h
    rcases List.mem_cons.mp h with h | h
    · exact Or.inr (by simp [h])
    · rcases ih h with h2 | h2
      · exact Or.inl h2
      · exact Or.inr (List.mem_cons_of_mem _ h2)

theorem mem_collapseWsNl {c : Char} {l : List Char} (h : c ∈ collapseWsNl l) :
    c ∈ l := by
  induction l using collapseWsNl.induct with
  | case1 => simp [collapseWsNl] at h
  | case2 d ds hd ih =>
    rw [collapseWsNl, if_pos hd] at h
    rcases List.mem_append.mp h with h | h
    · by_cases hnl : '\n' ∈ d :: ds.takeWhile isPyWs
      · rw [if_pos hnl] at h
        simp only [List.mem_singleton] at h
        subst h
        rcases List.mem_cons.mp hnl with h2 | h2
        · simp [h2.symm]
        · exact List.mem_cons_of_mem _ ((List.takeWhile_sublist _).mem h2)
      · rw [if_neg hnl] at h
        rcases List.mem_cons.mp h with h2 | h2
        · simp [h2]
        · exact List.mem_cons_of_mem _ ((List.takeWhile_sublist _).mem h2)
    · exact List.mem_cons_of_mem _ ((List.dropWhile_sublist _).mem (ih h))
  | case3 d ds hd ih =>
    rw [collapseWsNl, if_neg hd] at h
    rcases List.mem_cons.mp h with h | h
    · simp [h]
    · exact List.mem_cons_of_mem _ (ih h)

theorem noTab_collapseST {l : List Char} : ∀ c ∈ collapseST l, c ≠ '\t' := by
  intro c h
  induction l using collapseST.induct with
  | case1 => simp [collapseST] at h
  | case2 d ds hd ih =>
    rw [collapseST, if_pos hd] at h
    rcases List.mem_cons.mp h with h | h
    · subst h
      decide
    · exact ih h
  | case3 d ds hd ih =>
    rw [collapseST, if_neg hd] at h
    rcases List.mem_cons.mp h with h | h
    · subst h
      intro he
      rw [he] at hd
      exact hd (by decide)
    · exact ih h

theorem head_collapseST_nonST {l : List Char}
    (h : ∀ c : Char, l.head? = some c → isST c = false) :
    (collapseST l).head? = l.head? := by
  cases l with
  | nil => rw [collapseST]
  | cons d ds =>
    rw [collapseST, if_neg (by simp [h d rfl])]
    rfl

theorem head_collapseWsNl_nonWs {l : List Char}
    (h : ∀ c : Char, l.head? = some c → isPyWs c = false) :
    (collapseWsNl l).head? = l.head? := by
  cases l with
  | nil => rw [collapseWsNl]
  | cons d ds =>
    rw [collapseWsNl, if_neg (by simp [h d rfl])]
    rfl

theorem chain_stR_collapseST (l : List Char) : List.Chain' stR (collapseST l) := by
  induction l using collapseST.induct with
  | case1 =>
    rw [collapseST]
    exact List.chain'_nil
  | case2 d ds hd ih =>
    rw [collapseST, if_pos hd]
    rw [List.chain'_cons']
    refine ⟨?_, ih⟩
    intro b hb
    rw [Option.mem_def] at hb
    rw [head_collapseST_nonST (fun c hc => head_dropWhile_false hc)] at hb
    have hb2 : isST b = false := head_dropWhile_false hb
    intro hcon
    rw [hb2] at hcon
    simp at hcon
  | case3 d ds hd ih =>
    rw [collapseST, if_neg hd]
    rw [List.chain'_cons']
    refine ⟨?_, ih⟩
    intro b hb hcon
    exact hd hcon.1

theorem chain_stR_collapseWsNl {l : List Char} (hch : List.Chain' stR l) :
    List.Chain' stR (collapseWsNl l) := by
  induction l using collapseWsNl.induct with
  | case1 =>
    rw [collapseWsNl]
    exact List.chain'_nil
  | case2 d ds hd ih =>
    rw [collapseWsNl, if_pos hd]
    have hX : List.Chain' stR (collapseWsNl (ds.dropWhile isPyWs)) :=
      ih (hch.suffix ((List.dropWhile_suffix isPyWs).trans (List.suffix_cons d ds)))
    have hY : ∀ y : Char, (collapseWsNl (ds.dropWhile isPyWs)).head? = some y →
        isST y = false := by
      intro y hy
      rw [head_collapseWsNl_nonWs (fun c hc => head_dropWhile_false hc)] at hy
      have hws : isPyWs y = false := head_dropWhile_false hy
      by_contra hcon
      rw [st_imp_ws (by simpa using hcon)] at hws
      simp at hws
    rw [List.chain'_append]
    refine ⟨?_, hX, ?_⟩
    · by_cases hnl : '\n' ∈ d :: ds.takeWhile isPyWs
      · rw [if_pos hnl]
        exact List.chain'_singleton '\n'
      · rw [if_neg hnl]
        have htw : (d :: ds).takeWhile isPyWs = d :: ds.takeWhile isPyWs := by
          rw [List.takeWhile_cons, if_pos hd]
        rw [← htw]
        exact hch.prefix (List.takeWhile_prefix isPyWs)
    · intro x hx y hy
      intro hcon
      have := hY y (Option.mem_def.mp hy)
      rw [this] at hcon
      simp at hcon
  | case3 d ds hd ih =>
    rw [collapseWsNl, if_neg hd]
    rw [List.chain'_cons']
    refine ⟨?_, ih hch.tail⟩
    intro b hb hcon
    rw [st_imp_ws hcon.1] at hd
    exact hd rfl

theorem mem_of_head? {b : Char} {l : List Char} (h : l.head? = some b) : b ∈ l := by
  cases l with
  | nil => simp at h
  | cons a as =>
    simp only [List.head?_cons, Option.some.injEq] at h
    simp [h.symm]

theorem chain_nlR_of_no_nl {l : List Char} (h : '\n' ∉ l) : List.Chain' nlR l := by
  induction l with
  | nil => exact List.chain'_nil
  | cons a as ih =>
    rw [List.chain'_cons']
    refine ⟨?_, ih (fun hm => h (List.mem_cons_of_mem _ hm))⟩
    intro b hb hcon
    rcases hcon.2.2 with h2 | h2
    · exact h (List.mem_cons.mpr (Or.inl h2.symm))
    · subst h2
      exact h (List.mem_cons_of_mem _ (mem_of_head? (Option.mem_def.mp hb)))

theorem chain_nlR_collapseWsNl (l : List Char) : List.Chain' nlR (collapseWsNl l) := by
  induction l using collapseWsNl.induct with
  | case1 =>
    rw [collapseWsNl]
    exact List.chain'_nil
  | case2 d ds hd ih =>
    rw [collapseWsNl, if_pos hd]
    have hY : ∀ y : Char, (collapseWsNl (ds.dropWhile isPyWs)).head? = some y →
        isPyWs y = false := by
      intro y hy
      rw [head_collapseWsNl_nonWs (fun c hc => head_dropWhile_false hc)] at hy
      exact head_dropWhile_false hy
    rw [List.chain'_append]
    refine ⟨?_, ih, ?_⟩
    · by_cases hnl : '\n' ∈ d :: ds.takeWhile isPyWs
      · rw [if_pos hnl]
        exact List.chain'_singleton '\n'
      · rw [if_neg hnl]
        exact chain_nlR_of_no_nl hnl
    · intro x hx y hy hcon
      have := hY y (Option.mem_def.mp hy)
      rw [this] at hcon
      simp at hcon
  | case3 d ds hd ih =>
    rw [collapseWsNl, if_neg hd]
    rw [List.chain'_cons']
    refine ⟨?_, ih⟩
    intro b hb hcon
    rw [hcon.1] at hd
    exact hd rfl

theorem chain_of_infix {R : Char → Char → Prop} {l t : List Char}
    (h : List.Chain' R l) (ht : List.IsInfix t l) : List.Chain' R t := by
  rcases ht with ⟨u, v, huv⟩
  subst huv
  have h2 : List.Chain' R (t ++ v) := h.suffix ⟨u, (List.append_assoc u t v).symm⟩
  exact h2.prefix ⟨v, rfl⟩

/-- Characters of `nbspToSpace (removeZW l)` carry no zero-width mark and no
NBSP/ideographic space. -/
theorem clean_nbsp_removeZW {l : List Char} {c : Char}
    (h : c ∈ nbspToSpace (removeZW l)) :
    isZW c = false ∧ c ≠ ' ' ∧ c ≠ '　' := by
  unfold nbspToSpace at h
  rcases List.mem_map.mp h with ⟨a, ha, hfa⟩
  by_cases hcond : a = ' ' ∨ a = '　'
  · have hc : c = ' ' := by
      rw [← hfa]
      rcases hcond with h2 | h2 <;> simp [h2]
    subst hc
    exact ⟨by decide, by decide, by decide⟩
  · push_neg at hcond
    have hca : c = a := by
      rw [← hfa]
      simp [hcond.1, hcond.2]
    subst hca
    have hmem := List.mem_filter.mp ha
    exact ⟨by simpa using hmem.2, hcond.1, hcond.2⟩

theorem canonTextL_pyStripL (l : List Char) :
    canonTextL l = pyStripL (collapseWsNl (collapseST (nbspToSpace (removeZW l)))) := by
  unfold canonTextL
  rw [collapseNl2_eq_self (chain_nlR_collapseWsNl _)]

theorem canonGood_canonTextL (l : List Char) : CanonGood (canonTextL l) := by
  rw [canonTextL_pyStripL]
  have hInf := pyStripL_isInfix (collapseWsNl (collapseST (nbspToSpace (removeZW l))))
  refine ⟨?_, ?_, ?_, ?_, ?_, ?_, ?_⟩
  · intro c hc
    have h1 := mem_collapseWsNl (hInf.sublist.mem hc)
    rcases mem_collapseST h1 with h2 | h2
    · rw [h2]
      decide
    · exact (clean_nbsp_removeZW h2).1
  · intro c hc
    have h1 := mem_collapseWsNl (hInf.sublist.mem hc)
    rcases mem_collapseST h1 with h2 | h2
    · rw [h2]
      exact ⟨by decide, by decide⟩
    · exact (clean_nbsp_removeZW h2).2
  · intro c hc
    exact noTab_collapseST c (mem_collapseWsNl (hInf.sublist.mem hc))
  · exact chain_of_infix (chain_stR_collapseWsNl (chain_stR_collapseST _)) hInf
  · exact chain_of_infix (chain_nlR_collapseWsNl _) hInf
  · intro c hc
    exact head_pyStripL_false hc
  · intro c hc
    exact getLast_pyStripL_false hc

/-- `_canon_text` is idempotent. -/
theorem canonText_idem (s : String) : canonText (canonText s) = canonText s := by
  show (⟨canonTextL (canonTextL s.data)⟩ : String) = _
  rw [canonTextL_eq_self (canonGood_canonTextL s.data)]
  rfl

/-! ## Records and deduplication: pr-1.py `save_records` (lines 354-385);
pr-2.py `save_records` (lines 228-241) has the same
canonicalize-and-drop-duplicates core -/

/-- One output row of pr-1.py `build_records` (lines 311-340), with the fixed
COLS column set (lines 41-55).  The eight parsed fields are `Option String`
because `fields.get(...)` yields `None` when a field was never accumulated;
`_canon_text` maps `None` to `""`. -/
structure Record where
  region : String
  source_category : String
  item_title : String
  target : Option String
  application_period : Option String
  content : Option String
  application_method : Option String
  contact : Option String
  notes : Option String
  purchase_method : Option String
  location : Option String
  full_text : String
  source_url : String
deriving DecidableEq, Repr

/-- pr-1.py `_canon_text` on a dataframe cell that may hold `None`
(lines 344-345: `None`/NaN becomes `""` before the text pipeline). -/
def canonCell (x : Option String) : String := canonText (x.getD "")

/-- pr-1.py `save_records` lines 366-368: `_canon_text` is applied to every
comparison column (every column except `source_url` and `full_text`),
overwriting the column in place; `source_url` and `full_text` are not
touched. -/
def canonRecord (r : Record) : Record where
  region := canonText r.region
  source_category := canonText r.source_category
  item_title := canonText r.item_title
  target := some (canonCell r.target)
  application_period := some (canonCell r.application_period)
  content := some (canonCell r.content)
  application_method := some (canonCell r.application_method)
  contact := some (canonCell r.contact)
  notes := some (canonCell r.notes)
  purchase_method := some (canonCell r.purchase_method)
  location := some (canonCell r.location)
  full_text := r.full_text
  source_url := r.source_url

/-- The comparison key of pr-1.py `save_records` line 366: every column
except `source_url` and `full_text`. -/
def compareKey (r : Record) : List (Option String) :=
  [some r.region, some r.source_category, some r.item_title, r.target,
   r.application_period, r.content, r.application_method, r.contact,
   r.notes, r.purchase_method, r.location]

/-- `df.drop_duplicates(subset=compare_cols, keep="first")` (line 370): keep
a row iff no earlier row has the same comparison key. -/
def dropDupsBy (seen : List (List (Option String))) : List Record → List Record
  | [] => []
  | r :: rs =>
    if compareKey r ∈ seen then dropDupsBy seen rs
    else r :: dropDupsBy (compareKey r :: seen) rs

/-- The deduplication core of pr-1.py `save_records` (lines 366-370):
canonicalize every comparison column in place, then drop the rows whose
comparison key already occurred, keeping the first occurrence.  This is the
`deduplicate` operation the specification exposes. -/
def deduplicate (rs : List Record) : List Record :=
  dropDupsBy [] (rs.map canonRecord)

/-- Modelled from the spec for the C3 comparison: among duplicates (equal
comparison keys) the first in encounter order is kept and the rest are
discarded. -/
def specKeepFirst : List Record → List Record
  | [] => []
  | r :: rs =>
    r :: specKeepFirst (rs.filter (fun x => !(decide (compareKey x = compareKey r))))
termination_by l => l.length
decreasing_by
  simp only [List.length_cons]
  exact Nat.lt_succ_of_le (List.length_filter_le _ _)

theorem dropDupsBy_eq_spec (l : List Record) :
    ∀ seen, dropDupsBy seen l =
      specKeepFirst (l.filter (fun r => decide (compareKey r ∉ seen))) := by
  induction l with
  | nil =>
    intro seen
    rw [dropDupsBy, List.filter_nil, specKeepFirst]
  | cons r rs ih =>
    intro seen
    rw [dropDupsBy, List.filter_cons]
    by_cases hmem : compareKey r ∈ seen
    · rw [if_pos hmem, if_neg (by simp [hmem]), ih seen]
    · rw [if_neg hmem, if_pos (by simp [hmem]), specKeepFirst, ih (compareKey r :: seen)]
      rw [List.filter_filter]
      refine congrArg (fun t => r :: specKeepFirst t) (List.filter_congr ?_)
      intro x hx
      by_cases h1 : compareKey x = compareKey r
      · simp [h1]
      · by_cases h2 : compareKey x ∈ seen <;> simp [h1, h2]

theorem mem_of_dropDupsBy {r : Record} {seen : List (List (Option String))}
    {l : List Record} (h : r ∈ dropDupsBy seen l) : r ∈ l := by
  induction l generalizing seen with
  | nil =>
    rw [dropDupsBy] at h
    exact absurd h (List.not_mem_nil r)
  | cons x xs ih =>
    rw [dropDupsBy] at h
    by_cases hm : compareKey x ∈ seen
    · rw [if_pos hm] at h
      exact List.mem_cons_of_mem _ (ih h)
    · rw [if_neg hm] at h
      rcases List.mem_cons.mp h with h | h
      · simp [h]
      · exact List.mem_cons_of_mem _ (ih h)

theorem canonRecord_idem (r : Record) : canonRecord (canonRecord r) = canonRecord r := by
  simp [canonRecord, canonCell, canonText_idem]

theorem map_canonRecord_dedup (rs : List Record) :
    (deduplicate rs).map canonRecord = deduplicate rs := by
  have h : ∀ r ∈ deduplicate rs, canonRecord r = r := by
    intro r hr
    have h1 : r ∈ rs.map canonRecord := mem_of_dropDupsBy hr
    rcases List.mem_map.mp h1 with ⟨r0, _, hr0⟩
    rw [← hr0, canonRecord_idem]
  calc (deduplicate rs).map canonRecord = (deduplicate rs).map id := List.map_congr_left h
  _ = deduplicate rs := List.map_id _

theorem keys_dropDupsBy (seen : List (List (Option String))) (l : List Record) :
    ((dropDupsBy seen l).map compareKey).Nodup ∧
      ∀ k ∈ (dropDupsBy seen l).map compareKey, k ∉ seen := by
  induction l generalizing seen with
  | nil =>
    rw [dropDupsBy]
    exact ⟨List.nodup_nil, by simp⟩
  | cons x xs ih =>
    rw [dropDupsBy]
    by_cases hm : compareKey x ∈ seen
    · rw [if_pos hm]
      exact ih seen
    · rw [if_neg hm]
      obtain ⟨h1, h2⟩ := ih (compareKey x :: seen)
      refine ⟨?_, ?_⟩
      · rw [List.map_cons, List.nodup_cons]
        exact ⟨fun hmem => (h2 _ hmem) (List.mem_cons_self _ _), h1⟩
      · intro k hk
        rw [List.map_cons] at hk
        rcases List.mem_cons.mp hk with h | h
        · rw [h]
          exact hm
        · exact fun hs => (h2 k h) (List.mem_cons_of_mem _ hs)

theorem dropDupsBy_id {seen : List (List (Option String))} (l : List Record)
    (hnd : (l.map compareKey).Nodup) (hs : ∀ r ∈ l, compareKey r ∉ seen) :
    dropDupsBy seen l = l := by
  induction l generalizing seen with
  | nil => rw [dropDupsBy]
  | cons x xs ih =>
    rw [dropDupsBy, if_neg (hs x (List.mem_cons_self _ _))]
    congr 1
    rw [List.map_cons, List.nodup_cons] at hnd
    apply ih hnd.2
    intro r hr hmem
    rcases List.mem_cons.mp hmem with h | h
    · exact hnd.1 (h ▸ List.mem_map_of_mem compareKey hr)
    · exact hs r (List.mem_cons_of_mem _ hr) h

/-- C9: `deduplicate` is idempotent — applying the canonicalize-and-drop core
of `save_records` to its own output yields that output unchanged. -/
theorem claim_C9 (rs : List Record) : deduplicate (deduplicate rs) = deduplicate rs := by
  show dropDupsBy [] ((deduplicate rs).map canonRecord) = _
  rw [map_canonRecord_dedup]
  exact dropDupsBy_id (deduplicate rs)
    ((keys_dropDupsBy [] (rs.map canonRecord)).1) (by simp)

/-- C3, amended: `deduplicate` equals keep-the-first-of-each-class on the
*canonicalized* records — two records collapse exactly when all canonicalized
non-identifying columns agree, the first of each class is kept and later ones
discarded, and `source_url`/`full_text` pass through `canonRecord` verbatim.
However, the kept record's comparison columns carry their canonicalized
values (canonicalization is destructive, not for comparison only). -/
theorem claim_C3 :
    (∀ rs : List Record, deduplicate rs = specKeepFirst (rs.map canonRecord))
    ∧ ∀ r : Record, (canonRecord r).source_url = r.source_url
        ∧ (canonRecord r).full_text = r.full_text := by
  constructor
  · intro rs
    rw [deduplicate, dropDupsBy_eq_spec]
    rw [List.filter_eq_self.mpr (by simp)]
  · intro r
    exact ⟨rfl, rfl⟩

/-- A concrete record whose `content` field contains a double space. -/
def rawRecC3 : Record where
  region := "중구"
  source_category := ""
  item_title := "t"
  target := none
  application_period := none
  content := some "a  b"
  application_method := none
  contact := none
  notes := none
  purchase_method := none
  location := none
  full_text := "full  text"
  source_url := "u"

theorem canonText_double_space : canonText "a  b" = "a b" := by
  simp [canonText, canonTextL, removeZW, nbspToSpace, isZW, zwList,
    collapseST, isST, collapseWsNl, collapseNl2, isPyWs, pyWsList,
    pyStripL, dropEndWhile]

/-- C3, counterexample: canonicalization is not applied "for comparison
purposes only" — deduplicating the single record whose content is "a  b"
returns a record whose content is the canonicalized "a b", not the original
"a  b". -/
theorem claim_C3_counterexample :
    (deduplicate [rawRecC3]).map (fun r => r.content) = [some "a b"]
    ∧ rawRecC3.content = some "a  b"
    ∧ (some "a b" : Option String) ≠ some "a  b" := by
  refine ⟨?_, rfl, by decide⟩
  show (dropDupsBy [] [canonRecord rawRecC3]).map _ = _
  rw [dropDupsBy, if_neg (List.not_mem_nil _), dropDupsBy]
  show [(canonRecord rawRecC3).content] = _
  show [some (canonCell (some "a  b"))] = _
  rw [canonCell, Option.getD_some, canonText_double_space]

/-! ## Full-text reconstruction: junggu.py `build_records` line 345 and
pr-1.py `item_block_text` (lines 281-289) -/

/-- Python `"\n".join(lines)`. -/
def joinLines : List String → String
  | [] => ""
  | [l] => l
  | l :: a :: as => l ++ "\n" ++ joinLines (a :: as)

/-- junggu.py `build_records` line 345: the reconstructed full-text block
`"▶ " + item_title + "\n" + "\n".join(detail_lines)`. -/
def junggu_full_text (title : String) (detail_lines : List String) : String :=
  "▶ " ++ title ++ "\n" ++ joinLines detail_lines

/-- pr-1.py `item_block_text` (lines 281-289); pr-2.py lines 183-186 are the
same function written on one line. -/
def item_block_text (title0 : String) (detail_lines : List String) : String :=
  let title := pyStrip title0
  let lines := (detail_lines.map pyStrip).filter (fun l => !(l == ""))
  let body := joinLines lines
  if title ≠ "" ∧ body ≠ "" then "▶ " ++ title ++ "\n" ++ body
  else if title ≠ "" then "▶ " ++ title
  else body

/-- Substring containment, Python's `sub in s`, as a proposition. -/
def strContains (s sub : String) : Prop := List.IsInfix sub.data s.data

theorem isInfix_append_left {t b : List Char} (a : List Char)
    (h : List.IsInfix t b) : List.IsInfix t (a ++ b) := by
  obtain ⟨u, v, huv⟩ := h
  exact ⟨a ++ u, v, by rw [← huv]; simp [List.append_assoc]⟩

theorem isInfix_append_right {t a : List Char} (b : List Char)
    (h : List.IsInfix t a) : List.IsInfix t (a ++ b) := by
  obtain ⟨u, v, huv⟩ := h
  exact ⟨u, v ++ b, by rw [← huv]; simp [List.append_assoc]⟩

theorem infix_joinLines {l : String} {lines : List String} (h : l ∈ lines) :
    List.IsInfix l.data (joinLines lines).data := by
  induction lines with
  | nil => exact absurd h (List.not_mem_nil l)
  | cons a as ih =>
    rcases List.mem_cons.mp h with h | h
    · subst h
      cases as with
      | nil => exact List.infix_refl _
      | cons b bs =>
        rw [joinLines, String.data_append, String.data_append]
        exact isInfix_append_right _ (isInfix_append_right _ (List.infix_refl _))
    · cases as with
      | nil => exact absurd h (List.not_mem_nil l)
      | cons b bs =>
        rw [joinLines, String.data_append]
        exact isInfix_append_left _ (ih h)

theorem strContains_empty (s : String) : strContains s "" := by
  unfold strContains
  show List.IsInfix [] s.data
  exact List.nil_infix

/-- The title (and in pr-1 the stripped title) sits as an infix of
`"▶ " ++ title ++ rest`. -/
theorem title_infix (title rest : String) :
    List.IsInfix title.data ("▶ " ++ title ++ rest).data := by
  rw [String.data_append, String.data_append]
  exact isInfix_append_right _ (isInfix_append_left _ (List.infix_refl _))

/-- C2: both full-text reconstructions contain the item title and every
detail line, whatever classification did.  In pr-1 the detail lines of a
real Item are already stripped (split_items strips every line), which the
hypothesis records; the title appears stripped, as `item_block_text` itself
strips it. -/
theorem claim_C2 (title : String) (lines : List String)
    (h : ∀ l ∈ lines, pyStrip l = l) :
    (strContains (junggu_full_text title lines) title
      ∧ ∀ l ∈ lines, strContains (junggu_full_text title lines) l)
    ∧ (strContains (item_block_text title lines) (pyStrip title)
      ∧ ∀ l ∈ lines, strContains (item_block_text title lines) l) := by
  refine ⟨⟨?_, ?_⟩, ?_, ?_⟩
  · unfold junggu_full_text strContains
    have hshape : "▶ " ++ title ++ "\n" ++ joinLines lines
        = "▶ " ++ title ++ ("\n" ++ joinLines lines) := by
      simp [String.append_assoc]
    rw [hshape]
    exact title_infix title ("\n" ++ joinLines lines)
  · intro l hl
    unfold junggu_full_text strContains
    rw [String.data_append]
    exact isInfix_append_left _ (infix_joinLines hl)
  · unfold item_block_text strContains
    by_cases h1 : pyStrip title ≠ ""
        ∧ joinLines ((lines.map pyStrip).filter (fun l => !(l == ""))) ≠ ""
    · rw [if_pos h1]
      have hshape : "▶ " ++ pyStrip title ++ "\n"
            ++ joinLines ((lines.map pyStrip).filter (fun l => !(l == "")))
          = "▶ " ++ pyStrip title
            ++ ("\n" ++ joinLines ((lines.map pyStrip).filter (fun l => !(l == "")))) := by
        simp [String.append_assoc]
      rw [hshape]
      exact title_infix _ _
    · rw [if_neg h1]
      by_cases h2 : pyStrip title ≠ ""
      · rw [if_pos h2]
        rw [String.data_append]
        exact isInfix_append_left _ (List.infix_refl _)
      · rw [if_neg h2]
        push_neg at h2
        rw [h2]
        show List.IsInfix [] _
        exact List.nil_infix
  · intro l hl
    by_cases hle : l = ""
    · subst hle
      exact strContains_empty _
    · unfold item_block_text strContains
      have hmem : l ∈ (lines.map pyStrip).filter (fun x => !(x == "")) := by
        rw [List.mem_filter]
        refine ⟨?_, by simp [hle]⟩
        rw [← h l hl]
        exact List.mem_map_of_mem pyStrip hl
      have hbody := infix_joinLines hmem
      by_cases h1 : pyStrip title ≠ ""
          ∧ joinLines ((lines.map pyStrip).filter (fun x => !(x == ""))) ≠ ""
      · rw [if_pos h1, String.data_append]
        exact isInfix_append_left _ hbody
      · rw [if_neg h1]
        by_cases h2 : pyStrip title ≠ ""
        · exfalso
          apply h1
          refine ⟨h2, ?_⟩
          intro hempty
          rw [hempty] at hbody
          have hnil : l.data = [] := List.sublist_nil.mp hbody.sublist
          apply hle
          cases l with
          | mk d =>
            have hd : d = [] := by simpa using hnil
            subst hd
            rfl
        · rw [if_neg h2]
          exact hbody

/-- Witness for `claim_C2` at a concrete item. -/
theorem claim_C2_witness :
    (strContains (junggu_full_text "제목" ["ㅇ 대상 : 외국인"]) "제목"
      ∧ ∀ l ∈ ["ㅇ 대상 : 외국인"], strContains (junggu_full_text "제목" ["ㅇ 대상 : 외국인"]) l)
    ∧ (strContains (item_block_text "제목" ["ㅇ 대상 : 외국인"]) (pyStrip "제목")
      ∧ ∀ l ∈ ["ㅇ 대상 : 외국인"], strContains (item_block_text "제목" ["ㅇ 대상 : 외국인"]) l) :=
  claim_C2 "제목" ["ㅇ 대상 : 외국인"] (by decide)

/-! ## Item segmentation: junggu.py `split_items` (lines 264-310) and
pr-1.py `split_items` (lines 145-188) -/

structure SegItem where
  item_title : String
  detail_lines : List String
deriving DecidableEq, Repr

structure SplitState where
  items : List SegItem
  currentTitle : Option String
  currentDetails : List String
deriving DecidableEq, Repr

/-- The drop tokens of junggu.py line 267 and pr-1.py line 148. -/
def dropTokens : List String := ["첨부", "바로보기", "목록", "이전글", "다음글"]

/-- Python `ln.startswith(tuple_of_tokens)`. -/
def startsWithAny (toks : List String) (s : String) : Bool :=
  toks.any (fun t => List.isPrefixOf t.data s.data)

def angleOpen : List Char := ['<', '〈', '《']

def angleClose : List Char := ['>', '〉', '》']

/-- junggu.py line 283 `re.match(r"^[<〈《].+[>〉》]$", ln)` on a
newline-free line: at least three characters, the first an opening and the
last a closing bracket. -/
def isAngleWrapped (s : String) : Bool :=
  match s.data with
  | [] => false
  | c :: cs =>
    angleOpen.contains c && decide (2 ≤ cs.length) && angleClose.contains (cs.getLast?.getD ' ')

/-- junggu.py line 283 `re.match(r"^\d+\.\s*[A-Za-z가-힣]", ln)` (ASCII
digits, as in the crawled pages). -/
def isHangulSyl (c : Char) : Bool := decide (0xAC00 ≤ c.toNat) && decide (c.toNat ≤ 0xD7A3)

def isNumberedHeading (s : String) : Bool :=
  let l := s.data
  let ds := l.takeWhile Char.isDigit
  (!(ds.isEmpty)) &&
    (match l.drop ds.length with
     | '.' :: r2 =>
       (match r2.dropWhile isPyWs with
        | c :: _ => c.isAlpha || isHangulSyl c
        | [] => false)
     | _ => false)

/-- junggu.py line 285 `re.sub(r"^[▶\s]*", "", ln).strip()`. -/
def junggu_title_of (ln : String) : String :=
  pyStrip ⟨ln.data.dropWhile (fun c => c = '▶' || isPyWs c)⟩

/-- junggu.py lines 290-291 `re.sub(r"[<〈《>〉》]", "", x).strip()`. -/
def stripAngles (x : String) : String :=
  pyStrip ⟨x.data.filter (fun c => !((angleOpen ++ angleClose).contains c))⟩

/-- junggu.py line 289 guard plus lines 290-292: the line is skipped when a
non-empty fallback title is present and the bracket-stripped line equals the
bracket-stripped fallback title. -/
def dupOfFallback (fb : Option String) (ln : String) : Bool :=
  match fb with
  | some ft => (ft != "") && (stripAngles ln == stripAngles ft)
  | none => false

/-- junggu.py `flush_if_has_details` (lines 269-276): emit the open item only
if the title is truthy (non-empty) and at least one detail line exists; the
title is stripped on emission. -/
def flushJu (st : SplitState) : List SegItem :=
  match st.currentTitle with
  | some t => if t ≠ "" ∧ st.currentDetails ≠ [] then [⟨pyStrip t, st.currentDetails⟩] else []
  | none => []

/-- pr-1.py `flush_if_has_details` (lines 150-154): same, but the title is
emitted as-is. -/
def flushPr (st : SplitState) : List SegItem :=
  match st.currentTitle with
  | some t => if t ≠ "" ∧ st.currentDetails ≠ [] then [⟨t, st.currentDetails⟩] else []
  | none => []

/-- One loop iteration of junggu.py `split_items` (lines 278-298). -/
def junggu_split_step (fb : Option String) (st : SplitState) (ln : String) : SplitState :=
  if startsWithAny dropTokens ln then st
  else if List.isPrefixOf "▶".data ln.data || isAngleWrapped ln || isNumberedHeading ln then
    ⟨st.items ++ flushJu st, some (junggu_title_of ln), []⟩
  else if dupOfFallback fb ln then st
  else match st.currentTitle with
    | some t =>
      if t ≠ "" then { st with currentDetails := st.currentDetails ++ [ln] } else st
    | none => st

/-- Python `fallback_title or "(본문)"` (junggu.py line 306, pr-1.py
line 185): the placeholder is used when the fallback is absent or empty. -/
def fallbackTitle (fb : Option String) : String :=
  match fb with
  | some f => if f ≠ "" then f else "(본문)"
  | none => "(본문)"

/-- junggu.py `split_items` (lines 264-310) on the prepared line list. -/
def junggu_split_core (lines : List String) (fb : Option String) : List SegItem :=
  let st := lines.foldl (junggu_split_step fb) ⟨[], none, []⟩
  let items := st.items ++ flushJu st
  if items = [] ∧ lines ≠ [] then [⟨fallbackTitle fb, lines⟩] else items

/-- junggu.py line 265 / pr-1.py line 146
`[ln.strip() for ln in text.splitlines() if ln.strip()]` (the text produced
upstream separates lines with `\n` only). -/
def splitLinesPy (text : String) : List String :=
  ((text.splitOn "\n").map pyStrip).filter (fun l => !(l == ""))

/-- junggu.py `split_items` (lines 264-310). -/
def junggu_split_items (text : String) (fb : Option String) : List SegItem :=
  junggu_split_core (splitLinesPy text) fb

/-- pr-1.py lines 58 and 165-169: `^[\s]*[<〈《](.+?)[>〉》]\s*$` on a
newline-free line — after leading whitespace, an opening bracket, then the
shortest non-empty body up to a closing bracket that is followed only by
whitespace. -/
def angleScan (acc : List Char) : List Char → Option String
  | [] => none
  | c :: cs =>
    if angleClose.contains c && cs.all isPyWs && !(acc.isEmpty) then some ⟨acc.reverse⟩
    else angleScan (c :: acc) cs

def angleGroup (s : String) : Option String :=
  match s.data.dropWhile isPyWs with
  | [] => none
  | c :: cs => if angleOpen.contains c then angleScan [] cs else none

/-- pr-1.py line 177 `current_details[-1] += " " + ln`. -/
def appendToLast (ds : List String) (ln : String) : List String :=
  ds.dropLast ++ [(ds.getLast?.getD "") ++ " " ++ ln]

/-- One loop iteration of pr-1.py `split_items` (lines 156-179). -/
def pr1_split_step (st : SplitState) (ln : String) : SplitState :=
  if startsWithAny dropTokens ln then st
  else if List.isPrefixOf "▶".data ln.data then
    ⟨st.items ++ flushPr st, some (pyStrip ⟨ln.data.dropWhile (fun c => c = '▶')⟩), []⟩
  else match angleGroup ln with
  | some g => ⟨st.items ++ flushPr st, some (pyStrip g), []⟩
  | none =>
    if List.isPrefixOf "ㅇ".data ln.data then
      match st.currentTitle with
      | none => st
      | some _ => { st with currentDetails := st.currentDetails ++ [ln] }
    else
      if st.currentDetails ≠ [] then
        { st with currentDetails := appendToLast st.currentDetails ln }
      else match st.currentTitle with
        | some t => if t ≠ "" then { st with currentDetails := [ln] } else st
        | none => st

/-- pr-1.py `split_items` (lines 145-188) on the prepared line list. -/
def pr1_split_core (lines : List String) (fb : Option String) : List SegItem :=
  let st := lines.foldl pr1_split_step ⟨[], none, []⟩
  let items := st.items ++ flushPr st
  if items = [] ∧ lines ≠ [] then [⟨fallbackTitle fb, lines⟩] else items

/-- pr-1.py `split_items` (lines 145-188). -/
def pr1_split_items (text : String) (fb : Option String) : List SegItem :=
  pr1_split_core (splitLinesPy text) fb

/-! ## Claims C5 and C6 -/

/-- C5, counterexample: a line beginning with ▷ does not open a new Item in
either variant — junggu.py line 283 and pr-1.py line 160 test only for a
leading "▶".  Here the ▷ line falls through to the fallback item instead of
becoming an item titled "제목". -/
theorem claim_C5_counterexample :
    junggu_split_core ["▷ 제목", "ㅇ 대상 : 외국인"] none
      = [⟨"(본문)", ["▷ 제목", "ㅇ 대상 : 외국인"]⟩]
    ∧ ¬ ∃ it ∈ junggu_split_core ["▷ 제목", "ㅇ 대상 : 외국인"] none,
        it.item_title = "제목" := by
  constructor
  · decide
  · decide

/-- C5, amended: only a line beginning with "▶" flushes the open Item and
opens a new one (with the marker and leading whitespace stripped in
junggu.py, and the leading "▶" run stripped then stripped in pr-1.py); a
line beginning with ▷ or ► is never a boundary in either variant: it leaves
the already-collected items and the open title unchanged. -/
theorem claim_C5 :
    (∀ (fb : Option String) (st : SplitState) (cs : List Char),
       junggu_split_step fb st ⟨'▶' :: cs⟩
         = ⟨st.items ++ flushJu st, some (junggu_title_of ⟨'▶' :: cs⟩), []⟩)
    ∧ (∀ (fb : Option String) (st : SplitState) (c : Char) (cs : List Char),
       c = '▷' ∨ c = '►' →
       (junggu_split_step fb st ⟨c :: cs⟩).items = st.items
         ∧ (junggu_split_step fb st ⟨c :: cs⟩).currentTitle = st.currentTitle)
    ∧ (∀ (st : SplitState) (cs : List Char),
       pr1_split_step st ⟨'▶' :: cs⟩
         = ⟨st.items ++ flushPr st,
            some (pyStrip ⟨('▶' :: cs).dropWhile (fun c => c = '▶')⟩), []⟩)
    ∧ (∀ (st : SplitState) (c : Char) (cs : List Char),
       c = '▷' ∨ c = '►' →
       (pr1_split_step st ⟨c :: cs⟩).items = st.items
         ∧ (pr1_split_step st ⟨c :: cs⟩).currentTitle = st.currentTitle) := by
  refine ⟨?_, ?_, ?_, ?_⟩
  · intro fb st cs
    simp [junggu_split_step, startsWithAny, dropTokens, List.isPrefixOf]
  · intro fb st c cs hc
    have hsw : startsWithAny dropTokens ⟨c :: cs⟩ = false := by
      rcases hc with h | h <;> subst h <;>
        simp [startsWithAny, dropTokens, List.isPrefixOf]
    have hbd : (List.isPrefixOf "▶".data (⟨c :: cs⟩ : String).data
        || isAngleWrapped ⟨c :: cs⟩ || isNumberedHeading ⟨c :: cs⟩) = false := by
      rcases hc with h | h <;> subst h <;>
        simp [List.isPrefixOf, isAngleWrapped, isNumberedHeading, angleOpen]
    unfold junggu_split_step
    rw [hsw]
    simp only [Bool.false_eq_true, if_false]
    rw [hbd]
    simp only [Bool.false_eq_true, if_false]
    by_cases hdup : dupOfFallback fb ⟨c :: cs⟩
    · simp [hdup]
    · simp only [hdup, Bool.false_eq_true, if_false]
      cases hct : st.currentTitle with
      | none => exact ⟨rfl, hct⟩
      | some t =>
        dsimp only
        by_cases ht : t = ""
        · subst ht
          rw [if_neg (fun hcon => hcon rfl)]
          exact ⟨rfl, hct⟩
        · rw [if_pos ht]
          exact ⟨rfl, rfl⟩
  · intro st cs
    simp [pr1_split_step, startsWithAny, dropTokens, List.isPrefixOf]
  · intro st c cs hc
    have hsw : startsWithAny dropTokens ⟨c :: cs⟩ = false := by
      rcases hc with h | h <;> subst h <;>
        simp [startsWithAny, dropTokens, List.isPrefixOf]
    have hbd : List.isPrefixOf "▶".data (⟨c :: cs⟩ : String).data = false := by
      rcases hc with h | h <;> subst h <;> simp [List.isPrefixOf]
    have hag : angleGroup ⟨c :: cs⟩ = none := by
      rcases hc with h | h <;> subst h <;>
        simp [angleGroup, angleOpen, isPyWs, pyWsList]
    have hoi : List.isPrefixOf "ㅇ".data (⟨c :: cs⟩ : String).data = false := by
      rcases hc with h | h <;> subst h <;> simp [List.isPrefixOf]
    unfold pr1_split_step
    rw [hsw]
    simp only [Bool.false_eq_true, if_false]
    rw [hbd]
    simp only [Bool.false_eq_true, if_false]
    rw [hag]
    simp only []
    rw [hoi]
    simp only [Bool.false_eq_true, if_false]
    by_cases hds : st.currentDetails ≠ []
    · rw [if_pos hds]
      exact ⟨rfl, rfl⟩
    · rw [if_neg hds]
      cases hct : st.currentTitle with
      | none => exact ⟨rfl, hct⟩
      | some t =>
        dsimp only
        by_cases ht : t = ""
        · subst ht
          rw [if_neg (fun hcon => hcon rfl)]
          exact ⟨rfl, hct⟩
        · rw [if_pos ht]
          exact ⟨rfl, rfl⟩

/-- Witness for `claim_C5` at concrete inputs. -/
theorem claim_C5_witness :
    (junggu_split_step none ⟨[], none, []⟩ ⟨'▷' :: " x".data⟩).items = ([] : List SegItem)
    ∧ (junggu_split_step none ⟨[], none, []⟩ ⟨'▷' :: " x".data⟩).currentTitle
        = (none : Option String) :=
  (claim_C5.2.1) none ⟨[], none, []⟩ '▷' " x".data (Or.inl rfl)

/-- C6, counterexample: the fallback Item keeps the entire normalized line
sequence — a line that duplicates the fallback title is not removed from it
(junggu.py lines 303-308 and pr-1.py lines 184-186 use the full `lines`
list; the duplicate-title suppression of junggu.py lines 288-292 only
affects lines appended to an explicitly opened item). -/
theorem claim_C6_counterexample :
    junggu_split_core ["중구 안내", "ㅇ 대상"] (some "중구 안내")
      = [⟨"중구 안내", ["중구 안내", "ㅇ 대상"]⟩]
    ∧ ∃ it ∈ junggu_split_core ["중구 안내", "ㅇ 대상"] (some "중구 안내"),
        ∃ l ∈ it.detail_lines, stripAngles l = stripAngles "중구 안내" := by
  constructor
  · decide
  · decide

/-- C6, amended: when the loop produces zero Items, both variants return
exactly one Item titled with the fallback title (or the literal "(본문)"
when the fallback is absent or empty), whose detail lines are the entire
normalized line sequence — including any line that duplicates the fallback
title. -/
theorem claim_C6 :
    (∀ (lines : List String) (fb : Option String),
      (lines.foldl (junggu_split_step fb) ⟨[], none, []⟩).items
          ++ flushJu (lines.foldl (junggu_split_step fb) ⟨[], none, []⟩) = [] →
      lines ≠ [] →
      junggu_split_core lines fb = [⟨fallbackTitle fb, lines⟩])
    ∧ (∀ (lines : List String) (fb : Option String),
      (lines.foldl pr1_split_step ⟨[], none, []⟩).items
          ++ flushPr (lines.foldl pr1_split_step ⟨[], none, []⟩) = [] →
      lines ≠ [] →
      pr1_split_core lines fb = [⟨fallbackTitle fb, lines⟩]) := by
  constructor
  · intro lines fb h1 h2
    unfold junggu_split_core
    rw [if_pos ⟨h1, h2⟩]
  · intro lines fb h1 h2
    unfold pr1_split_core
    rw [if_pos ⟨h1, h2⟩]

/-- Witness for `claim_C6` at a concrete input. -/
theorem claim_C6_witness :
    junggu_split_core ["본문 내용"] none = [⟨fallbackTitle none, ["본문 내용"]⟩] :=
  claim_C6.1 ["본문 내용"] none (by decide) (by decide)

/-! ## Noise trimming: pr-1.py `trim_noise_lines` (lines 86-98) and
pr-2.py `trim_noise_lines` (lines 100-109) -/

/-- `\[.+?\].*` anchored at the current position: an opening bracket with a
closing bracket at least two characters later. -/
def bracketNoiseAt (l : List Char) : Bool :=
  match l with
  | '[' :: _ :: r2 => r2.contains ']'
  | _ => false

/-- `아주\s*만족` / `아주\s*불만` anchored at the current position. -/
def ajuPat (w2 : List Char) (l : List Char) : Bool :=
  List.isPrefixOf "아주".data l && List.isPrefixOf w2 ((l.drop 2).dropWhile isPyWs)

/-- One of the NOISE_PATTERNS of pr-1.py lines 79-83 (pr-2.py lines 40-42
are the same list) matches at the current position. -/
def noiseAt (l : List Char) : Bool :=
  bracketNoiseAt l || List.isPrefixOf "해당 메뉴에 대한 만족도".data l
    || ajuPat "만족".data l || List.isPrefixOf "보통".data l || ajuPat "불만".data l

/-- `NOISE_LINE_PAT.search(text)` on a newline-free line. -/
def noiseSearch (s : String) : Bool := s.data.tails.any noiseAt

/-- pr-1.py line 90: `re.match(r"^ㅇ\s*문\s*의", text)` or
`re.match(r"^ㅇ\s*연락처", text)`. -/
def isContactHdr (s : String) : Bool :=
  (match s.data with
   | 'ㅇ' :: r1 =>
     (match r1.dropWhile isPyWs with
      | '문' :: r2 =>
        (match r2.dropWhile isPyWs with
         | '의' :: _ => true
         | _ => false)
      | _ => false)
   | _ => false)
  || (match s.data with
      | 'ㅇ' :: r1 => List.isPrefixOf "연락처".data (r1.dropWhile isPyWs)
      | _ => false)

/-- pr-2.py line 104: same two heads, but the `[ㅇ○]` marker is optional and
may also be `○`. -/
def pr2ContactHdr (s : String) : Bool :=
  let kern1 := fun (x : List Char) =>
    match x with
    | '문' :: r2 =>
      (match r2.dropWhile isPyWs with
       | '의' :: _ => true
       | _ => false)
    | _ => false
  let kern2 := fun (x : List Char) => List.isPrefixOf "연락처".data x
  (kern1 s.data || (match s.data with
     | c :: r => (c = 'ㅇ' || c = '○') && kern1 (r.dropWhile isPyWs)
     | [] => false))
  || (kern2 s.data || (match s.data with
     | c :: r => (c = 'ㅇ' || c = '○') && kern2 (r.dropWhile isPyWs)
     | [] => false))

/-- An alternative of the truncation pattern of pr-1.py line 91 (pr-2.py
line 105 differs only in writing `]` unescaped):
`\[.*?\]|해당 메뉴에 대한 만족도|아주\s*만족|보통|아주\s*불만` matches at the
current position (the bracket alternative allows an empty body). -/
def splitPatAt (l : List Char) : Bool :=
  (match l with
   | '[' :: r => r.contains ']'
   | _ => false)
  || List.isPrefixOf "해당 메뉴에 대한 만족도".data l
    || ajuPat "만족".data l || List.isPrefixOf "보통".data l || ajuPat "불만".data l

/-- `re.split(pattern, text)[0]`: the prefix of the line before the first
position where the truncation pattern matches. -/
def truncAtSplitL : List Char → List Char
  | [] => []
  | c :: cs => if splitPatAt (c :: cs) then [] else c :: truncAtSplitL cs

def truncAtSplit (s : String) : String := ⟨truncAtSplitL s.data⟩

/-- pr-1.py `trim_noise_lines` (lines 86-98). -/
def trim_noise_lines : List String → List String
  | [] => []
  | ln :: rest =>
    let text := pyStrip ln
    if isContactHdr text then
      let t := pyStrip (truncAtSplit text)
      if t ≠ "" then t :: trim_noise_lines rest else trim_noise_lines rest
    else if noiseSearch text then []
    else ln :: trim_noise_lines rest

/-- pr-2.py `trim_noise_lines` (lines 100-109).  Note the `continue` is part
of the single-line `if t:` suite, so a contact line whose truncation strips
to empty falls through to the noise test with the emptied `t` and is then
appended in full. -/
def pr2_trim_noise_lines : List String → List String
  | [] => []
  | ln :: rest =>
    let t0 := pyStrip ln
    if pr2ContactHdr t0 then
      let t := pyStrip (truncAtSplit t0)
      if t ≠ "" then t :: pr2_trim_noise_lines rest
      else if noiseSearch t then []
      else ln :: pr2_trim_noise_lines rest
    else if noiseSearch t0 then []
    else ln :: pr2_trim_noise_lines rest

theorem truncAtSplitL_isPrefix (l : List Char) :
    List.IsPrefix (truncAtSplitL l) l := by
  induction l with
  | nil => exact List.prefix_refl _
  | cons c cs ih =>
    rw [truncAtSplitL]
    by_cases h : splitPatAt (c :: cs)
    · rw [if_pos h]
      exact List.nil_prefix
    · rw [if_neg h]
      exact (List.cons_prefix_cons).mpr ⟨rfl, ih⟩

theorem truncAtSplitL_first (l : List Char) :
    ∀ n, n < (truncAtSplitL l).length → splitPatAt (l.drop n) = false := by
  induction l with
  | nil => intro n hn; simp [truncAtSplitL] at hn
  | cons c cs ih =>
    intro n hn
    rw [truncAtSplitL] at hn
    by_cases h : splitPatAt (c :: cs)
    · rw [if_pos h] at hn
      simp at hn
    · rw [if_neg h] at hn
      cases n with
      | zero => simpa using h
      | succ k =>
        rw [List.length_cons, Nat.succ_lt_succ_iff] at hn
        exact ih k hn

theorem truncAtSplitL_cut (l : List Char) (h : truncAtSplitL l ≠ l) :
    splitPatAt (l.drop (truncAtSplitL l).length) = true := by
  induction l with
  | nil => exact absurd rfl h
  | cons c cs ih =>
    rw [truncAtSplitL] at h ⊢
    by_cases hp : splitPatAt (c :: cs)
    · rw [if_pos hp]
      simpa using hp
    · rw [if_neg hp] at h ⊢
      have h2 : truncAtSplitL cs ≠ cs := by
        intro he
        exact h (by rw [he])
      rw [List.length_cons, List.drop_succ_cons]
      exact ih h2

/-- C7: the noise-trimmer contract, for both variants.  (a)/(a2): the first
noise-matching non-contact line terminates the scan — it and everything
after it are dropped, while the prefix is processed as if the rest were
absent.  (b)/(b2): a contact/inquiry header line is truncated at the first
truncation-pattern occurrence, kept when the truncated remainder is
non-empty, and the scan continues.  (c): the truncation point is the first
pattern occurrence — no pattern matches inside the kept prefix, and when the
line was actually cut, a pattern matches exactly at the cut.  (d)/(d2): a
line that is neither a contact header nor noise is kept verbatim and the
scan continues. -/
theorem claim_C7 :
    (∀ (pre post : List String) (l : String),
       (∀ x ∈ pre, isContactHdr (pyStrip x) = true ∨ noiseSearch (pyStrip x) = false) →
       noiseSearch (pyStrip l) = true → isContactHdr (pyStrip l) = false →
       trim_noise_lines (pre ++ l :: post) = trim_noise_lines pre)
    ∧ (∀ (l : String) (rest : List String), isContactHdr (pyStrip l) = true →
       trim_noise_lines (l :: rest)
         = (if pyStrip (truncAtSplit (pyStrip l)) ≠ ""
              then [pyStrip (truncAtSplit (pyStrip l))] else [])
            ++ trim_noise_lines rest)
    ∧ ((∀ l : List Char, List.IsPrefix (truncAtSplitL l) l)
       ∧ (∀ (l : List Char) (n : Nat), n < (truncAtSplitL l).length →
            splitPatAt (l.drop n) = false)
       ∧ (∀ l : List Char, truncAtSplitL l ≠ l →
            splitPatAt (l.drop (truncAtSplitL l).length) = true))
    ∧ (∀ (l : String) (rest : List String), isContactHdr (pyStrip l) = false →
       noiseSearch (pyStrip l) = false →
       trim_noise_lines (l :: rest) = l :: trim_noise_lines rest)
    ∧ (∀ (pre post : List String) (l : String),
       (∀ x ∈ pre, pr2ContactHdr (pyStrip x) = true ∨ noiseSearch (pyStrip x) = false) →
       noiseSearch (pyStrip l) = true → pr2ContactHdr (pyStrip l) = false →
       pr2_trim_noise_lines (pre ++ l :: post) = pr2_trim_noise_lines pre)
    ∧ (∀ (l : String) (rest : List String), pr2ContactHdr (pyStrip l) = true →
       pyStrip (truncAtSplit (pyStrip l)) ≠ "" →
       pr2_trim_noise_lines (l :: rest)
         = pyStrip (truncAtSplit (pyStrip l)) :: pr2_trim_noise_lines rest)
    ∧ (∀ (l : String) (rest : List String), pr2ContactHdr (pyStrip l) = false →
       noiseSearch (pyStrip l) = false →
       pr2_trim_noise_lines (l :: rest) = l :: pr2_trim_noise_lines rest) := by
  refine ⟨?_, ?_, ⟨truncAtSplitL_isPrefix, truncAtSplitL_first, truncAtSplitL_cut⟩, ?_, ?_, ?_, ?_⟩
  · intro pre post l hpre hl hlc
    induction pre with
    | nil =>
      rw [List.nil_append, trim_noise_lines, trim_noise_lines]
      rw [if_neg (by simp [hlc]), if_pos hl]
    | cons x xs ih =>
      rw [List.cons_append, trim_noise_lines, trim_noise_lines]
      rcases hpre x (List.mem_cons_self x xs) with hx | hx
      · rw [if_pos hx, if_pos hx]
        have ih2 := ih (fun y hy => hpre y (List.mem_cons_of_mem _ hy))
        by_cases ht : pyStrip (truncAtSplit (pyStrip x)) ≠ ""
        · rw [if_pos ht, if_pos ht, ih2]
        · rw [if_neg ht, if_neg ht, ih2]
      · by_cases hcx : isContactHdr (pyStrip x)
        · rw [if_pos hcx, if_pos hcx]
          have ih2 := ih (fun y hy => hpre y (List.mem_cons_of_mem _ hy))
          by_cases ht : pyStrip (truncAtSplit (pyStrip x)) ≠ ""
          · rw [if_pos ht, if_pos ht, ih2]
          · rw [if_neg ht, if_neg ht, ih2]
        · have hcxn : ¬(isContactHdr (pyStrip x) = true) := hcx
          have hxn : ¬(noiseSearch (pyStrip x) = true) := by simp [hx]
          rw [if_neg hcxn, if_neg hcxn, if_neg hxn, if_neg hxn]
          rw [ih (fun y hy => hpre y (List.mem_cons_of_mem _ hy))]
  · intro l rest hc
    rw [trim_noise_lines, if_pos hc]
    by_cases ht : pyStrip (truncAtSplit (pyStrip l)) ≠ ""
    · rw [if_pos ht, if_pos ht]
      rfl
    · rw [if_neg ht, if_neg ht]
      rfl
  · intro l rest hc hn
    rw [trim_noise_lines, if_neg (by simp [hc]), if_neg (by simp [hn])]
  · intro pre post l hpre hl hlc
    induction pre with
    | nil =>
      rw [List.nil_append, pr2_trim_noise_lines, pr2_trim_noise_lines]
      rw [if_neg (by simp [hlc]), if_pos hl]
    | cons x xs ih =>
      rw [List.cons_append, pr2_trim_noise_lines, pr2_trim_noise_lines]
      have ih2 := ih (fun y hy => hpre y (List.mem_cons_of_mem _ hy))
      by_cases hcx : pr2ContactHdr (pyStrip x)
      · rw [if_pos hcx, if_pos hcx]
        by_cases ht : pyStrip (truncAtSplit (pyStrip x)) ≠ ""
        · rw [if_pos ht, if_pos ht, ih2]
        · rw [if_neg ht, if_neg ht]
          have hne : noiseSearch (pyStrip (truncAtSplit (pyStrip x))) = false := by
            push_neg at ht
            rw [ht]
            decide
          rw [if_neg (by simp [hne]), if_neg (by simp [hne]), ih2]
      · rcases hpre x (List.mem_cons_self x xs) with hx | hx
        · exact absurd hx (by simp [hcx])
        · have hcxn : ¬(pr2ContactHdr (pyStrip x) = true) := hcx
          have hxn : ¬(noiseSearch (pyStrip x) = true) := by simp [hx]
          rw [if_neg hcxn, if_neg hcxn, if_neg hxn, if_neg hxn, ih2]
  · intro l rest hc ht
    rw [pr2_trim_noise_lines, if_pos hc, if_pos ht]
  · intro l rest hc hn
    rw [pr2_trim_noise_lines, if_neg (by simp [hc]), if_neg (by simp [hn])]

/-- Witness for `claim_C7` at a concrete scan. -/
theorem claim_C7_witness :
    trim_noise_lines (["ㅇ 문의 : 중구청 [만족도조사]"]
        ++ "해당 메뉴에 대한 만족도 조사" :: ["뒤따르는 줄"])
      = trim_noise_lines ["ㅇ 문의 : 중구청 [만족도조사]"] :=
  claim_C7.1 ["ㅇ 문의 : 중구청 [만족도조사]"] ["뒤따르는 줄"]
    "해당 메뉴에 대한 만족도 조사" (by decide) (by decide) (by decide)

/-! ## Field accumulation, keyword-inclusion variant:
junggu.py `parse_detail_lines_to_fields` (lines 160-253) -/

/-- The per-item accumulator state: the fields dict, the open section and the
locked section. -/
structure JuState where
  fields : String → Option String
  current_section : Option String
  locked_section : Option String

def setField (f : String → Option String) (k : String) (v : String) :
    String → Option String :=
  fun k2 => if k2 = k then some v else f k2

/-- Python `f"{old} / {v}".strip(" /")` with `old = fields.get(k, '')`
(junggu.py lines 187, 191, 216, 233, 251). -/
def jungguAppend (old : Option String) (v : String) : String :=
  ⟨dropEndWhile (fun c => c = ' ' || c = '/')
    (((old.getD "") ++ " / " ++ v).data.dropWhile (fun c => c = ' ' || c = '/'))⟩

def dropSemi (l : List Char) : List Char :=
  match l with
  | c :: r => if c = ';' then r else c :: r
  | [] => []

theorem dropSemi_length (l : List Char) : (dropSemi l).length ≤ l.length := by
  cases l with
  | nil => simp [dropSemi]
  | cons c r =>
    rw [dropSemi]
    by_cases h : c = ';'
    · rw [if_pos h]
      simp
    · rw [if_neg h]

/-- junggu.py line 169 `re.sub(r"&nbsp;?", " ", text)`: each `&nbsp`
occurrence, with an optional trailing `;` (preferred by the greedy `?`),
becomes one space. -/
def nbspEntityRepl : List Char → List Char
  | [] => []
  | c :: cs =>
    if c = '&' && List.isPrefixOf "nbsp".data cs then
      ' ' :: nbspEntityRepl (dropSemi (cs.drop 4))
    else c :: nbspEntityRepl cs
termination_by l => l.length
decreasing_by
  · simp only [List.length_cons]
    exact Nat.lt_succ_of_le ((dropSemi_length _).trans
      ((List.drop_sublist 4 cs).length_le))
  · simp

/-- junggu.py lines 166-169: zero-width removal, strip, emptiness test, then
`&nbsp;?` replacement; `none` when the stripped text is empty (the loop
`continue`s). -/
def cleanText (raw : String) : Option String :=
  let t1 := pyStripL (removeZW raw.data)
  if t1 = [] then none else some ⟨nbspEntityRepl t1⟩

/-- junggu.py line 174: the leading-marker class `^[\s○●※\-–•·∙⋅☆▶▷]*`. -/
def lockMarkers : List Char := ['○', '●', '※', '-', '–', '•', '·', '∙', '⋅', '☆', '▶', '▷']

/-- junggu.py lines 174-176: strip leading markers, cut at the first `:` then
at the first `-`, normalize and classify. -/
def lockedCandidate (text : String) : Option String :=
  let ck := text.data.dropWhile (fun c => isPyWs c || lockMarkers.contains c)
  let k1 := ck.takeWhile (fun x => !(x == ':'))
  let k2 := k1.takeWhile (fun x => !(x == '-'))
  auto_map_key (junggu_normalize_key ⟨k2⟩)

def delimChars : List Char := [':', '：', '-', '–']

/-- junggu.py lines 184-186: if the line contains a delimiter, the value is
the stripped text after the first delimiter character, else `""`. -/
def unlockVal (text : String) : String :=
  if text.data.any (fun c => delimChars.contains c) then
    pyStrip ⟨(text.data.dropWhile (fun c => !(delimChars.contains c))).drop 1⟩
  else ""

/-- junggu.py lines 196-204: a `※` line (after lstrip) is exempt from bullet
stripping. -/
def refExempt (text : String) : Bool :=
  match text.data.dropWhile isPyWs with
  | '※' :: _ => true
  | _ => false

/-- The bullet class of junggu.py line 201. -/
def juBullets : List Char :=
  ['▶', '▷', '○', '●', '□', '■', '◆', '◇', '☆', '-', '–', '•', '·', '∙', '⋅', '◦', '❍']

/-- The lookahead `(?=\(?[가-힣A-Za-z0-9])` of junggu.py line 201. -/
def lookaheadOk (l : List Char) : Bool :=
  match l with
  | '(' :: d :: _ => d.isAlpha || d.isDigit || isHangulSyl d
  | c :: _ => c.isAlpha || c.isDigit || isHangulSyl c
  | [] => false

/-- junggu.py lines 196-204: `※` lines keep their text (stripped); otherwise
one leading bullet (with surrounding whitespace) is removed when followed by
an optional parenthesis and a word character; then `.strip()`. -/
def bulletStrip (text : String) : String :=
  if refExempt text then pyStrip text
  else
    match text.data.dropWhile isPyWs with
    | c :: rest =>
      if juBullets.contains c && lookaheadOk (rest.dropWhile isPyWs) then
        pyStrip ⟨rest.dropWhile isPyWs⟩
      else pyStrip text
    | [] => pyStrip text

def colonChars : List Char := [':', '：']

/-- junggu.py lines 208-209: `re.search(r"[:：]\s*", stripped)` then
`re.split(r"[:：]", stripped, 1)`. -/
def colonSplit (s : String) : Option (String × String) :=
  if s.data.any (fun c => colonChars.contains c) then
    some (⟨s.data.takeWhile (fun c => !(colonChars.contains c))⟩,
      ⟨(s.data.dropWhile (fun c => !(colonChars.contains c))).drop 1⟩)
  else none

def dashChars : List Char := ['-', '–']

def isHangulOrWs (c : Char) : Bool := isHangulSyl c || isPyWs c

/-- junggu.py line 224 `re.match(r"^([가-힣\s]+?)\s*[-–]\s*(.+)$", stripped)`
on a newline-free line: the first dash must be preceded only by Hangul
syllables and whitespace (at least one character) and followed by at least
one character; the lazy group and the greedy `\s*` make the groups equal to
the stripped prefix and suffix once `.strip()` is applied, which is how the
code uses them. -/
def dashMatch (s : String) : Option (String × String) :=
  let l := s.data
  let pre := l.takeWhile (fun c => !(dashChars.contains c))
  match l.drop pre.length with
  | _ :: tail =>
    if 1 ≤ pre.length && pre.all isHangulOrWs && !(tail.isEmpty) then
      some (⟨pre⟩, ⟨tail⟩)
    else none
  | [] => none

/-- junggu.py lines 240-251: bare-keyword line, else plain sentence into the
current section (or `content`). -/
def jungguBare (st : JuState) (text stripped : String) : JuState :=
  match auto_map_key (junggu_normalize_key stripped) with
  | some mapped =>
    { st with
      current_section := some mapped
      locked_section := if mapped = "method" then some "method" else none }
  | none =>
    let target := st.current_section.getD "content"
    { st with fields := setField st.fields target (jungguAppend (st.fields target) text) }

/-- junggu.py lines 223-237: the `키 - 값` pattern. -/
def jungguDash (st : JuState) (text stripped : String) : JuState :=
  match dashMatch stripped with
  | some (key, val) =>
    (match auto_map_key (junggu_normalize_key key) with
     | some mapped =>
       { fields := setField st.fields mapped
           (jungguAppend (st.fields mapped) (pyStrip key ++ " - " ++ pyStrip val))
         current_section := some mapped
         locked_section := if mapped = "method" then some "method" else none }
     | none => jungguBare st text stripped)
  | none => jungguBare st text stripped

/-- junggu.py lines 194-251: the unlocked handling of one line. -/
def jungguUnlocked (st : JuState) (text : String) : JuState :=
  let stripped := bulletStrip text
  match colonSplit stripped with
  | some (key, val) =>
    (match auto_map_key (junggu_normalize_key key) with
     | some mapped =>
       { fields := setField st.fields mapped
           (jungguAppend (st.fields mapped) (pyStrip key ++ " : " ++ pyStrip val))
         current_section := some mapped
         locked_section := if mapped = "method" then some "method" else none }
     | none => jungguDash st text stripped)
  | none => jungguDash st text stripped

/-- One loop iteration of junggu.py `parse_detail_lines_to_fields`
(lines 165-251). -/
def jungguStep (st : JuState) (raw : String) : JuState :=
  match cleanText raw with
  | none => st
  | some text =>
    match st.locked_section with
    | some lk =>
      (match lockedCandidate text with
       | some k =>
         if k ≠ lk then
           { fields := setField st.fields k (jungguAppend (st.fields k) (unlockVal text))
             current_section := some k
             locked_section := none }
         else { st with fields := setField st.fields lk (jungguAppend (st.fields lk) text) }
       | none => { st with fields := setField st.fields lk (jungguAppend (st.fields lk) text) })
    | none => jungguUnlocked st text

def initJuState : JuState := ⟨fun _ => none, none, none⟩

/-- junggu.py `parse_detail_lines_to_fields` (lines 160-253), with the final
`fields` dict in `.fields`. -/
def junggu_parse (detail_lines : List String) : JuState :=
  detail_lines.foldl jungguStep initJuState

/-! ## Field accumulation, alias-table variant:
pr-1.py `parse_detail_lines_to_fields` (lines 206-278) and
pr-2.py `parse_detail_lines_to_fields` (lines 129-181) -/

/-- pr-2.py KEY_ALIAS (lines 25-38). -/
def KEY_ALIAS_pr2 : List (String × String) :=
  [("대상", "target"), ("지원대상", "target"), ("지원자격", "target"),
   ("내용", "content"), ("주요내용", "content"), ("지원내용", "content"),
   ("보장내용", "content"), ("제출서류", "content"),
   ("지원한도", "content"), ("지원금액", "content"), ("지원 금액", "content"),
   ("한도", "content"), ("지원형태", "content"),
   ("사용처", "notes"), ("기타", "notes"), ("비고", "notes"),
   ("이용방법", "application_method"), ("신청방법", "application_method"),
   ("신청", "application_method"), ("청구방법", "application_method"),
   ("인증방법", "application_method"),
   ("문의", "contact"), ("문 의", "contact"), ("연락처", "contact"),
   ("기간", "application_period"), ("신청기간", "application_period"),
   ("신청기한", "application_period"), ("청구기간", "application_period"),
   ("보장기간", "application_period"), ("추진일정", "application_period"),
   ("일시", "application_period"), ("일 시", "application_period"),
   ("구입방법", "purchase_method"), ("구 입 방법", "purchase_method"),
   ("장소", "location"), ("장 소", "location")]

/-- pr-1.py KEY_ALIAS (lines 63-76): pr-2's table plus a dead
`" 주요내용"` entry (its key contains a space, which `normalize_key` output
never does). -/
def KEY_ALIAS_pr1 : List (String × String) :=
  [("대상", "target"), ("지원대상", "target"), ("지원자격", "target"),
   ("내용", "content"), ("주요내용", "content"), (" 주요내용", "content"),
   ("지원내용", "content"), ("보장내용", "content"),
   ("제출서류", "content"), ("지원한도", "content"), ("지원금액", "content"),
   ("지원 금액", "content"), ("한도", "content"), ("지원형태", "content"),
   ("사용처", "notes"), ("기타", "notes"), ("비고", "notes"),
   ("이용방법", "application_method"), ("신청방법", "application_method"),
   ("신청", "application_method"), ("청구방법", "application_method"),
   ("인증방법", "application_method"),
   ("문의", "contact"), ("문 의", "contact"), ("연락처", "contact"),
   ("기간", "application_period"), ("신청기간", "application_period"),
   ("신청기한", "application_period"), ("청구기간", "application_period"),
   ("보장기간", "application_period"), ("추진일정", "application_period"),
   ("일시", "application_period"), ("일 시", "application_period"),
   ("구입방법", "purchase_method"), ("구 입 방법", "purchase_method"),
   ("장소", "location"), ("장 소", "location")]

/-- Python `KEY_ALIAS.get(k)`. -/
def aliasGet (tbl : List (String × String)) (k : String) : Option String :=
  List.lookup k tbl

/-- pr-1.py `append_field` (lines 199-204); pr-2.py lines 125-127 identical:
an empty value is a no-op; otherwise join to a truthy existing value with
`" / "`, else overwrite. -/
def append_field (fields : String → Option String) (key val : String) :
    String → Option String :=
  if val = "" then fields
  else
    match fields key with
    | some old => if old ≠ "" then setField fields key (old ++ " / " ++ val)
        else setField fields key val
    | none => setField fields key val

/-- The scan behind `KEY_VALUE_PAT.match` (`\s*(.+?)\s*[:：\-–]\s*(.+)$`,
pr-1.py line 59) on a line with no leading whitespace and no newline: the
lazy group makes the match use the first delimiter having at least one
character before and one after it; the raw prefix/suffix are returned, and
the callers' `.strip()` of `group(1)`/`group(2)` equals stripping them. -/
def kvScan (acc : List Char) : List Char → Option (String × String)
  | [] => none
  | c :: cs =>
    if delimChars.contains c && !(acc.isEmpty) && !(cs.isEmpty) then
      some (⟨acc.reverse⟩, ⟨cs⟩)
    else kvScan (c :: acc) cs

def keyValueSplit (s : String) : Option (String × String) := kvScan [] s.data

/-- pr-2.py `strip_leading_marker` (lines 135-136): `^[ㅇ○]\s*`. -/
def strip_leading_marker (s : String) : String :=
  match s.data with
  | c :: r => if c = 'ㅇ' || c = '○' then ⟨r.dropWhile isPyWs⟩ else s
  | [] => s

/-- pr-1.py `strip_leading_oi` (lines 213-214): `^ㅇ\s*`. -/
def strip_leading_oi (s : String) : String :=
  match s.data with
  | c :: r => if c = 'ㅇ' then ⟨r.dropWhile isPyWs⟩ else s
  | [] => s

/-- Truncation at the first position where `p` matches
(`re.split(pattern, v)[0]`). -/
def truncAtPred (p : List Char → Bool) : List Char → List Char
  | [] => []
  | c :: cs => if p (c :: cs) then [] else c :: truncAtPred p cs

/-- An alternative of `\[|첨부|바로보기|목록|이전글|다음글|만족|불만|확인`
(pr-1.py line 230) matches at the current position. -/
def contactCut1At (l : List Char) : Bool :=
  (match l with
   | '[' :: _ => true
   | _ => false)
  || ["첨부", "바로보기", "목록", "이전글", "다음글", "만족", "불만", "확인"].any
      (fun t => List.isPrefixOf t.data l)

/-- `\.(pdf|hwp|hwpx|docx?|xlsx?|pptx?|zip|jpe?g|png)` (case-insensitive,
pr-1.py line 231) matches at the current position. -/
def extCutAt (l : List Char) : Bool :=
  match l with
  | '.' :: r =>
    ["pdf", "hwp", "hwpx", "doc", "docx", "xls", "xlsx", "ppt", "pptx",
     "zip", "jpg", "jpeg", "png"].any
      (fun e => List.isPrefixOf e.data (r.map Char.toLower))
  | _ => false

/-- Exactly `n` decimal digits, returning the remainder. -/
def takeDigitCount : Nat → List Char → Option (List Char)
  | 0, l => some l
  | _ + 1, [] => none
  | n + 1, c :: cs => if c.isDigit then takeDigitCount n cs else none

def firstSome {α : Type} : List Nat → (Nat → Option α) → Option α
  | [], _ => none
  | n :: ns, f =>
    match f n with
    | some r => some r
    | none => firstSome ns f

/-- One `\d{2,4}\s*-\s*\d{3,4}\s*-\s*\d{4}` phone group (PHONE_SEQ,
pr-1.py line 61), at the current position, with the greedy counted
repetitions tried longest-first; returns the remainder after the match. -/
def matchPhoneCore (l : List Char) : Option (List Char) :=
  firstSome [4, 3, 2] (fun n =>
    match takeDigitCount n l with
    | none => none
    | some r1 =>
      match r1.dropWhile isPyWs with
      | '-' :: r3 =>
        firstSome [4, 3] (fun m =>
          match takeDigitCount m (r3.dropWhile isPyWs) with
          | none => none
          | some r5 =>
            match r5.dropWhile isPyWs with
            | '-' :: r7 => takeDigitCount 4 (r7.dropWhile isPyWs)
            | _ => none)
      | _ => none)

theorem takeDigitCount_length :
    ∀ (n : Nat) (l r : List Char), takeDigitCount n l = some r → r.length + n = l.length := by
  intro n
  induction n with
  | zero =>
    intro l r h
    rw [takeDigitCount] at h
    simp only [Option.some.injEq] at h
    subst h
    simp
  | succ m ih =>
    intro l r h
    cases l with
    | nil => rw [takeDigitCount] at h; exact absurd h (by simp)
    | cons c cs =>
      rw [takeDigitCount] at h
      by_cases hd : c.isDigit
      · rw [if_pos hd] at h
        have := ih cs r h
        simp [List.length_cons]
        omega
      · rw [if_neg hd] at h
        exact absurd h (by simp)

theorem firstSome_cases {α : Type} {ns : List Nat} {f : Nat → Option α} {r : α}
    (h : firstSome ns f = some r) : ∃ n ∈ ns, f n = some r := by
  induction ns with
  | nil => rw [firstSome] at h; exact absurd h (by simp)
  | cons n ns ih =>
    rw [firstSome] at h
    cases hf : f n with
    | some x =>
      rw [hf] at h
      simp only [Option.some.injEq] at h
      exact ⟨n, by simp, by rw [hf, h]⟩
    | none =>
      rw [hf] at h
      rcases ih h with ⟨m, hm, hfm⟩
      exact ⟨m, List.mem_cons_of_mem _ hm, hfm⟩

theorem matchPhoneCore_length {l r : List Char} (h : matchPhoneCore l = some r) :
    r.length < l.length := by
  rcases firstSome_cases h with ⟨n, hn, hfn⟩
  have hn' : n = 4 ∨ n = 3 ∨ n = 2 := by simpa using hn
  have hn1 : 1 ≤ n := by rcases hn' with h1 | h1 | h1 <;> omega
  split at hfn
  · exact absurd hfn (by simp)
  · rename_i r1 h1
    split at hfn
    · rename_i r3 h2
      rcases firstSome_cases hfn with ⟨m, hm, hfm⟩
      split at hfm
      · exact absurd hfm (by simp)
      · rename_i r5 h3
        split at hfm
        · rename_i r7 h4
          have hl1 : r1.length + n = l.length := takeDigitCount_length n l r1 h1
          have h5 := takeDigitCount_length 4 (r7.dropWhile isPyWs) r hfm
          have c1 : r.length ≤ (r7.dropWhile isPyWs).length := by omega
          have c2 : (r7.dropWhile isPyWs).length ≤ r7.length :=
            (List.dropWhile_sublist _).length_le
          have c3 : r7.length < r5.length := by
            have hh : (r5.dropWhile isPyWs).length ≤ r5.length :=
              (List.dropWhile_sublist _).length_le
            rw [h4] at hh
            simp only [List.length_cons] at hh
            omega
          have c4 : r5.length ≤ (r3.dropWhile isPyWs).length := by
            have := takeDigitCount_length m (r3.dropWhile isPyWs) r5 h3
            omega
          have c5 : (r3.dropWhile isPyWs).length ≤ r3.length :=
            (List.dropWhile_sublist _).length_le
          have c6 : r3.length < r1.length := by
            have hh : (r1.dropWhile isPyWs).length ≤ r1.length :=
              (List.dropWhile_sublist _).length_le
            rw [h2] at hh
            simp only [List.length_cons] at hh
            omega
          omega
        · exact absurd hfm (by simp)
    · exact absurd hfn (by simp)

/-- The greedy `(?:\s*/\s*PHONE)*` repetition of PHONE_SEQ: consume as many
further `/`-separated phone groups as possible, returning the remainder. -/
def phoneTail (l : List Char) : List Char :=
  match hm : l.dropWhile isPyWs with
  | '/' :: r =>
    (match hc : matchPhoneCore (r.dropWhile isPyWs) with
     | some rest => phoneTail rest
     | none => l)
  | _ => l
termination_by l.length
decreasing_by
  have c1 : rest.length < (r.dropWhile isPyWs).length := matchPhoneCore_length hc
  have c2 : (r.dropWhile isPyWs).length ≤ r.length := (List.dropWhile_sublist _).length_le
  have c3 : r.length < (l.dropWhile isPyWs).length := by
    rw [hm]
    simp
  have c4 : (l.dropWhile isPyWs).length ≤ l.length := (List.dropWhile_sublist _).length_le
  omega

/-- `PHONE_SEQ.search(v)` followed by `v[:mphone.end()]` (pr-1.py
lines 232-234): the prefix of `v` up to the end of the leftmost phone-number
sequence, when one exists. -/
def phoneCut : List Char → Option (List Char)
  | [] => none
  | c :: cs =>
    match matchPhoneCore (c :: cs) with
    | some rest => some ((c :: cs).take ((c :: cs).length - (phoneTail rest).length))
    | none => (phoneCut cs).map (fun p => c :: p)

/-- The `contact` value cleanup of pr-1.py lines 229-234 (pr-2.py
lines 150-154 identical): truncate at navigation/survey markers, truncate at
a file-extension dot, and cut after the first phone-number sequence. -/
def contactClean (v : String) : String :=
  let v1 := pyStrip ⟨truncAtPred contactCut1At v.data⟩
  let v2 := pyStrip ⟨truncAtPred extCutAt v1.data⟩
  match phoneCut v2.data with
  | some p => pyStrip ⟨p⟩
  | none => v2

/-- Python `s.split()`: whitespace-delimited words, no empties. -/
def splitWsWords : List Char → List String
  | [] => []
  | c :: cs =>
    if isPyWs c then splitWsWords (cs.dropWhile isPyWs)
    else ⟨c :: cs.takeWhile (fun x => !(isPyWs x))⟩
      :: splitWsWords (cs.dropWhile (fun x => !(isPyWs x)))
termination_by l => l.length
decreasing_by
  · simp only [List.length_cons]
    exact Nat.lt_succ_of_le (List.dropWhile_sublist _).length_le
  · simp only [List.length_cons]
    exact Nat.lt_succ_of_le (List.dropWhile_sublist _).length_le

/-- Python `" ".join(words)`. -/
def joinSpace : List String → String
  | [] => ""
  | [w] => w
  | w :: a :: as => w ++ " " ++ joinSpace (a :: as)

/-- The longest-prefix alias scan of pr-1.py lines 243-259 (pr-2.py
lines 160-170): for i from the word count down to 1, normalize the join of
the first i words and look it up; on a hit, the inline remainder is the
line after the first `len(pre_part)` characters, stripped. -/
def prefixScanAux (tbl : List (String × String)) (words : List String)
    (hc : String) : Nat → Option (String × String)
  | 0 => none
  | i + 1 =>
    let pre_part := joinSpace (words.take (i + 1))
    match aliasGet tbl (pr1_normalize_key pre_part) with
    | some k => some (k, pyStrip ⟨hc.data.drop pre_part.data.length⟩)
    | none => prefixScanAux tbl words hc i

def prefixScan (tbl : List (String × String)) (words : List String)
    (hc : String) : Option (String × String) :=
  prefixScanAux tbl words hc words.length

/-- pr-2.py BULLET_PREFIXES (line 132). -/
def pr2Bullets : List String := ["☞", "•", "·", "-", "▶", "▷", "■", "※", "●", "○"]

/-- pr-1.py BULLET_PREFIXES (line 209). -/
def pr1Bullets : List String := ["☞", "•", "·", "-", "▶", "▷", "■"]

/-- `NUM_BULLET` (`^\d+\.\s*|^[①②③④⑤⑥⑦⑧⑨⑩]`, pr-1.py line 210 and
pr-2.py line 133) matches at the start of the line. -/
def numBulletMatch (s : String) : Bool :=
  (let ds := s.data.takeWhile Char.isDigit
   !(ds.isEmpty) &&
     (match s.data.drop ds.length with
      | '.' :: _ => true
      | _ => false))
  || (match s.data with
      | c :: _ => ['①', '②', '③', '④', '⑤', '⑥', '⑦', '⑧', '⑨', '⑩'].contains c
      | [] => false)

/-- The per-item accumulator state of the alias-table variants: the fields
dict and the open section. -/
structure PrState where
  fields : String → Option String
  current_section : Option String

/-- pr-2.py lines 159-179: longest-prefix scan, then bullet/number line,
then plain line (the last two append identically). -/
def pr2Rest (st : PrState) (raw_norm : String) : PrState :=
  let head_candidate := strip_leading_marker raw_norm
  match prefixScan KEY_ALIAS_pr2 (splitWsWords head_candidate.data) head_candidate with
  | some (k, rest) =>
    ⟨if rest ≠ "" then append_field st.fields k rest else st.fields, some k⟩
  | none =>
    if startsWithAny pr2Bullets raw_norm || numBulletMatch raw_norm then
      ⟨append_field st.fields (st.current_section.getD "content") raw_norm,
       st.current_section⟩
    else
      ⟨append_field st.fields (st.current_section.getD "content") raw_norm,
       st.current_section⟩

/-- One loop iteration of pr-2.py `parse_detail_lines_to_fields`
(lines 138-179). -/
def pr2Step (st : PrState) (raw : String) : PrState :=
  let raw_norm := pyStrip ⟨removeZW raw.data⟩
  if raw_norm = "" then st
  else
    match keyValueSplit (strip_leading_marker raw_norm) with
    | some (preRaw, postRaw) =>
      (match aliasGet KEY_ALIAS_pr2 (pr1_normalize_key (pyStrip preRaw)) with
       | some k =>
         ⟨append_field st.fields k
            (if k = "contact" then contactClean (pyStrip postRaw) else pyStrip postRaw),
          some k⟩
       | none => pr2Rest st raw_norm)
    | none => pr2Rest st raw_norm

/-- pr-1.py lines 239-276: the same cascade with pr-1's marker stripper,
alias table and bullet set. -/
def pr1Rest (st : PrState) (raw_norm : String) : PrState :=
  let head_candidate := strip_leading_oi raw_norm
  match prefixScan KEY_ALIAS_pr1 (splitWsWords head_candidate.data) head_candidate with
  | some (k, rest) =>
    ⟨if rest ≠ "" then append_field st.fields k rest else st.fields, some k⟩
  | none =>
    if startsWithAny pr1Bullets raw_norm || numBulletMatch raw_norm then
      ⟨append_field st.fields (st.current_section.getD "content") raw_norm,
       st.current_section⟩
    else
      ⟨append_field st.fields (st.current_section.getD "content") raw_norm,
       st.current_section⟩

/-- One loop iteration of pr-1.py `parse_detail_lines_to_fields`
(lines 216-276). -/
def pr1Step (st : PrState) (raw : String) : PrState :=
  let raw_norm := pyStrip ⟨removeZW raw.data⟩
  if raw_norm = "" then st
  else
    match keyValueSplit (strip_leading_oi raw_norm) with
    | some (preRaw, postRaw) =>
      (match aliasGet KEY_ALIAS_pr1 (pr1_normalize_key (pyStrip preRaw)) with
       | some k =>
         ⟨append_field st.fields k
            (if k = "contact" then contactClean (pyStrip postRaw) else pyStrip postRaw),
          some k⟩
       | none => pr1Rest st raw_norm)
    | none => pr1Rest st raw_norm

def initPrState : PrState := ⟨fun _ => none, none⟩

/-- pr-2.py `parse_detail_lines_to_fields` (lines 129-181). -/
def pr2_parse (detail_lines : List String) : PrState :=
  detail_lines.foldl pr2Step initPrState

/-- pr-1.py `parse_detail_lines_to_fields` (lines 206-278). -/
def pr1_parse (detail_lines : List String) : PrState :=
  detail_lines.foldl pr1Step initPrState

/-! ## Claim C10 -/

theorem string_eq_empty_iff (s : String) : s = "" ↔ s.data = [] := by
  cases s with
  | mk d =>
    constructor
    · intro h
      rw [h]
    · intro h
      subst h
      rfl

theorem append_ne_empty (a b : String) (hb : b ≠ "") : a ++ b ≠ "" := by
  intro hcon
  rw [string_eq_empty_iff, String.data_append, List.append_eq_nil] at hcon
  exact hb ((string_eq_empty_iff b).mpr hcon.2)

/-- `append_field` never stores an empty value. -/
theorem append_field_ne {f : String → Option String}
    (hf : ∀ k v, f k = some v → v ≠ "") (key val : String) :
    ∀ k v, append_field f key val k = some v → v ≠ "" := by
  intro k v h
  unfold append_field at h
  by_cases hv : val = ""
  · rw [if_pos hv] at h
    exact hf k v h
  · rw [if_neg hv] at h
    have hset : ∀ w, w ≠ "" → setField f key w k = some v → v ≠ "" := by
      intro w hw hs
      unfold setField at hs
      by_cases hk : k = key
      · rw [if_pos hk] at hs
        injection hs with hs
        rw [← hs]
        exact hw
      · rw [if_neg hk] at hs
        exact hf k v hs
    cases hfk : f key with
    | some old =>
      rw [hfk] at h
      dsimp only at h
      by_cases ho : old ≠ ""
      · rw [if_pos ho] at h
        exact hset _ (append_ne_empty _ _ hv) h
      · rw [if_neg ho] at h
        exact hset _ hv h
    | none =>
      rw [hfk] at h
      dsimp only at h
      exact hset _ hv h

theorem pr2Rest_ne {st : PrState} (hf : ∀ k v, st.fields k = some v → v ≠ "")
    (raw_norm : String) : ∀ k v, (pr2Rest st raw_norm).fields k = some v → v ≠ "" := by
  intro k v h
  simp only [pr2Rest] at h
  cases hps : prefixScan KEY_ALIAS_pr2
      (splitWsWords (strip_leading_marker raw_norm).data) (strip_leading_marker raw_norm) with
  | some kr =>
    obtain ⟨kk, rest⟩ := kr
    rw [hps] at h
    dsimp only at h
    by_cases hr : rest ≠ ""
    · rw [if_pos hr] at h
      exact append_field_ne hf _ _ k v h
    · rw [if_neg hr] at h
      exact hf k v h
  | none =>
    rw [hps] at h
    dsimp only at h
    by_cases hb : (startsWithAny pr2Bullets raw_norm || numBulletMatch raw_norm) = true
    · rw [if_pos hb] at h
      exact append_field_ne hf _ _ k v h
    · rw [if_neg hb] at h
      exact append_field_ne hf _ _ k v h

theorem pr2Step_ne {st : PrState} (hf : ∀ k v, st.fields k = some v → v ≠ "")
    (raw : String) : ∀ k v, (pr2Step st raw).fields k = some v → v ≠ "" := by
  intro k v h
  simp only [pr2Step] at h
  by_cases he : pyStrip ⟨removeZW raw.data⟩ = ""
  · rw [if_pos he] at h
    exact hf k v h
  · rw [if_neg he] at h
    cases hkv : keyValueSplit (strip_leading_marker (pyStrip ⟨removeZW raw.data⟩)) with
    | some pq =>
      obtain ⟨preRaw, postRaw⟩ := pq
      rw [hkv] at h
      dsimp only at h
      cases hag : aliasGet KEY_ALIAS_pr2 (pr1_normalize_key (pyStrip preRaw)) with
      | some kk =>
        rw [hag] at h
        dsimp only at h
        exact append_field_ne hf _ _ k v h
      | none =>
        rw [hag] at h
        dsimp only at h
        exact pr2Rest_ne hf _ k v h
    | none =>
      rw [hkv] at h
      dsimp only at h
      exact pr2Rest_ne hf _ k v h

theorem pr1Rest_ne {st : PrState} (hf : ∀ k v, st.fields k = some v → v ≠ "")
    (raw_norm : String) : ∀ k v, (pr1Rest st raw_norm).fields k = some v → v ≠ "" := by
  intro k v h
  simp only [pr1Rest] at h
  cases hps : prefixScan KEY_ALIAS_pr1
      (splitWsWords (strip_leading_oi raw_norm).data) (strip_leading_oi raw_norm) with
  | some kr =>
    obtain ⟨kk, rest⟩ := kr
    rw [hps] at h
    dsimp only at h
    by_cases hr : rest ≠ ""
    · rw [if_pos hr] at h
      exact append_field_ne hf _ _ k v h
    · rw [if_neg hr] at h
      exact hf k v h
  | none =>
    rw [hps] at h
    dsimp only at h
    by_cases hb : (startsWithAny pr1Bullets raw_norm || numBulletMatch raw_norm) = true
    · rw [if_pos hb] at h
      exact append_field_ne hf _ _ k v h
    · rw [if_neg hb] at h
      exact append_field_ne hf _ _ k v h

theorem pr1Step_ne {st : PrState} (hf : ∀ k v, st.fields k = some v → v ≠ "")
    (raw : String) : ∀ k v, (pr1Step st raw).fields k = some v → v ≠ "" := by
  intro k v h
  simp only [pr1Step] at h
  by_cases he : pyStrip ⟨removeZW raw.data⟩ = ""
  · rw [if_pos he] at h
    exact hf k v h
  · rw [if_neg he] at h
    cases hkv : keyValueSplit (strip_leading_oi (pyStrip ⟨removeZW raw.data⟩)) with
    | some pq =>
      obtain ⟨preRaw, postRaw⟩ := pq
      rw [hkv] at h
      dsimp only at h
      cases hag : aliasGet KEY_ALIAS_pr1 (pr1_normalize_key (pyStrip preRaw)) with
      | some kk =>
        rw [hag] at h
        dsimp only at h
        exact append_field_ne hf _ _ k v h
      | none =>
        rw [hag] at h
        dsimp only at h
        exact pr1Rest_ne hf _ k v h
    | none =>
      rw [hkv] at h
      dsimp only at h
      exact pr1Rest_ne hf _ k v h

theorem foldl_ne {step : PrState → String → PrState}
    (hstep : ∀ (st : PrState), (∀ k v, st.fields k = some v → v ≠ "") →
      ∀ raw k v, (step st raw).fields k = some v → v ≠ "")
    (lines : List String) :
    ∀ (st : PrState), (∀ k v, st.fields k = some v → v ≠ "") →
      ∀ k v, (lines.foldl step st).fields k = some v → v ≠ "" := by
  induction lines with
  | nil =>
    intro st hst k v h
    exact hst k v h
  | cons l ls ih =>
    intro st hst k v h
    exact ih (step st l) (fun k2 v2 h2 => hstep st hst l k2 v2 h2) k v h

/-- C10: the alias-table accumulator never creates or keeps an empty field
value — appending an empty value is a no-op, and after parsing any detail
lines every key present in the fields mapping of either variant maps to a
non-empty string. -/
theorem claim_C10 :
    (∀ (f : String → Option String) (k : String), append_field f k "" = f)
    ∧ (∀ (lines : List String) (k v : String),
        (pr1_parse lines).fields k = some v → v ≠ "")
    ∧ (∀ (lines : List String) (k v : String),
        (pr2_parse lines).fields k = some v → v ≠ "") := by
  refine ⟨?_, ?_, ?_⟩
  · intro f k
    unfold append_field
    rw [if_pos rfl]
  · intro lines k v h
    exact foldl_ne (fun st hst raw => pr1Step_ne hst raw) lines initPrState
      (fun k2 v2 h2 => by exact absurd h2 (by simp [initPrState])) k v h
  · intro lines k v h
    exact foldl_ne (fun st hst raw => pr2Step_ne hst raw) lines initPrState
      (fun k2 v2 h2 => by exact absurd h2 (by simp [initPrState])) k v h

/-- Witness for `claim_C10` at a concrete parse. -/
theorem claim_C10_witness : ("외국인 주민" : String) ≠ "" :=
  claim_C10.2.2 ["ㅇ 대상 : 외국인 주민"] "target" "외국인 주민" (by
    simp [pr2_parse, pr2Step, pr2Rest, initPrState, removeZW, isZW, zwList, pyStrip,
      pyStripL, dropEndWhile, isPyWs, pyWsList, strip_leading_marker, keyValueSplit,
      kvScan, delimChars, aliasGet, KEY_ALIAS_pr2, pr1_normalize_key, nbspToSpace,
      prDecor, prDash, append_field, setField, contactClean, List.lookup])

/-! ## Claim C4 -/

theorem mk_cons_ne_empty (c : Char) (cs : List Char) : (⟨c :: cs⟩ : String) ≠ "" := by
  intro h
  rw [string_eq_empty_iff] at h
  exact absurd h (by simp)

theorem kvScan_acc :
    ∀ (l acc : List Char) (p q : String), kvScan acc l = some (p, q) →
      ∃ t, p.data = acc.reverse ++ t := by
  intro l
  induction l with
  | nil =>
    intro acc p q h
    rw [kvScan] at h
    exact absurd h (by simp)
  | cons c cs ih =>
    intro acc p q h
    rw [kvScan] at h
    by_cases hcond : (delimChars.contains c && !(acc.isEmpty) && !(cs.isEmpty)) = true
    · rw [if_pos hcond] at h
      simp only [Option.some.injEq, Prod.mk.injEq] at h
      refine ⟨[], ?_⟩
      rw [← h.1]
      simp
    · rw [if_neg hcond] at h
      rcases ih (c :: acc) p q h with ⟨t, ht⟩
      refine ⟨c :: t, ?_⟩
      rw [ht]
      simp

theorem dropWhile_append_singleton {p : Char → Bool} {c : Char} (hc : p c = false)
    (xs : List Char) : (xs ++ [c]).dropWhile p = xs.dropWhile p ++ [c] := by
  induction xs with
  | nil => simp [List.dropWhile, hc]
  | cons a as ih =>
    rw [List.cons_append, List.dropWhile_cons, List.dropWhile_cons]
    by_cases ha : p a
    · rw [if_pos ha, if_pos ha, ih]
    · rw [if_neg ha, if_neg ha, List.cons_append]

/-- Stripping a string whose first character is not whitespace keeps that
first character. -/
theorem pyStripL_cons_nonws {c : Char} {cs : List Char} (h : isPyWs c = false) :
    pyStripL (c :: cs) = c :: dropEndWhile isPyWs cs := by
  unfold pyStripL dropEndWhile
  rw [List.dropWhile_cons, if_neg (by simp [h])]
  rw [List.reverse_cons, dropWhile_append_singleton h, List.reverse_append]
  rfl

theorem pr1nk_cons_ref (t : List Char) :
    (pr1_normalize_key ⟨'※' :: t⟩).data = '※' :: (pr1_normalize_key ⟨t⟩).data := by
  simp only [pr1_normalize_key, removeZW, nbspToSpace]
  rw [List.filter_cons_of_pos (by decide), List.map_cons]
  rw [show (if (decide ('※' = '\u00A0') || decide ('※' = '\u3000')) = true
      then ' ' else '※') = '※' from by decide]
  rw [List.filter_cons_of_pos (by decide), List.filter_cons_of_pos (by decide),
    List.filter_cons_of_pos (by decide)]

theorem lookup_none_of_ne {tbl : List (String × String)} {s : String}
    (h : ∀ p ∈ tbl, p.1 ≠ s) : List.lookup s tbl = none := by
  induction tbl with
  | nil => rfl
  | cons p ps ih =>
    rw [List.lookup]
    have hne : (s == p.1) = false := by
      simp only [beq_eq_false_iff_ne, ne_eq]
      intro he
      exact h p (by simp) he.symm
    rw [hne]
    exact ih (fun q hq => h q (List.mem_cons_of_mem _ hq))

/-- No alias key begins with the reference marker, so a `※`-headed
normalized key never classifies. -/
theorem aliasGet_ref_none_pr2 {s : String} {u : List Char} (hs : s.data = '※' :: u) :
    aliasGet KEY_ALIAS_pr2 s = none := by
  unfold aliasGet
  apply lookup_none_of_ne
  intro p hp he
  have hhead : ∀ q ∈ KEY_ALIAS_pr2, q.1.data.head? ≠ some '※' := by decide
  apply hhead p hp
  rw [he, hs]
  rfl

theorem splitWsWords_cons_nonws {c : Char} {cs : List Char} (h : isPyWs c = false) :
    splitWsWords (c :: cs)
      = ⟨c :: cs.takeWhile (fun x => !(isPyWs x))⟩
        :: splitWsWords (cs.dropWhile (fun x => !(isPyWs x))) := by
  rw [splitWsWords, if_neg (by simp [h])]

theorem joinSpace_cons_data (w : String) (ws : List String) :
    ∃ u, (joinSpace (w :: ws)).data = w.data ++ u := by
  cases ws with
  | nil =>
    refine ⟨[], ?_⟩
    rw [joinSpace]
    simp
  | cons a as =>
    refine ⟨(" " ++ joinSpace (a :: as)).data, ?_⟩
    rw [joinSpace, String.append_assoc, String.data_append]

theorem prefixScanAux_ref_none (tw : List Char) (ws : List String) (hc : String) :
    ∀ i, prefixScanAux KEY_ALIAS_pr2 (⟨'※' :: tw⟩ :: ws) hc i = none := by
  intro i
  induction i with
  | zero => rw [prefixScanAux]
  | succ j ih =>
    rw [prefixScanAux]
    have htake : (⟨'※' :: tw⟩ :: ws).take (j + 1) = ⟨'※' :: tw⟩ :: ws.take j := by
      rw [List.take_succ_cons]
    rw [htake]
    rcases joinSpace_cons_data ⟨'※' :: tw⟩ (ws.take j) with ⟨u, hu⟩
    have hdata : (joinSpace (⟨'※' :: tw⟩ :: ws.take j)).data = '※' :: (tw ++ u) := by
      rw [hu]
      rfl
    have hjs : joinSpace (⟨'※' :: tw⟩ :: ws.take j) = ⟨'※' :: (tw ++ u)⟩ := by
      cases hj : joinSpace (⟨'※' :: tw⟩ :: ws.take j) with
      | mk d =>
        rw [hj] at hdata
        simp only at hdata
        rw [hdata]
    rw [hjs]
    rw [show aliasGet KEY_ALIAS_pr2 (pr1_normalize_key ⟨'※' :: (tw ++ u)⟩) = none from
      aliasGet_ref_none_pr2 (pr1nk_cons_ref (tw ++ u))]
    exact ih

theorem strip_leading_marker_ref (cs : List Char) :
    strip_leading_marker ⟨'※' :: cs⟩ = ⟨'※' :: cs⟩ := by
  rw [strip_leading_marker]
  simp

/-- C4, amended: in the alias-table variant (pr-2.py), a detail line whose
cleaned text begins with `※` is never a classification candidate — neither
the key:value delimiter path nor the longest-prefix scan can match, because
the normalized key keeps its leading `※` and no alias starts with it — so
the entire line is appended to the currently open section, or to `content`
when none is open, and the open section does not change.  In the
keyword-inclusion variant (junggu.py), by contrast, `※` only exempts the
line from bullet stripping: a `※` line containing a delimiter is still
classified (see the counterexample), because junggu's `normalize_key`
deletes `※` before keyword matching. -/
theorem claim_C4 :
    (∀ (st : PrState) (raw : String) (cs : List Char),
      pyStrip ⟨removeZW raw.data⟩ = ⟨'※' :: cs⟩ →
      pr2Step st raw
        = ⟨append_field st.fields (st.current_section.getD "content") ⟨'※' :: cs⟩,
           st.current_section⟩)
    ∧ (junggu_parse ["※ 문의 : 02"]).fields "contact" = some "※ 문의 : 02" := by
  constructor
  · intro st raw cs h
    have hrest : pr2Rest st ⟨'※' :: cs⟩
        = ⟨append_field st.fields (st.current_section.getD "content") ⟨'※' :: cs⟩,
           st.current_section⟩ := by
      simp only [pr2Rest]
      rw [strip_leading_marker_ref]
      rw [show (⟨'※' :: cs⟩ : String).data = '※' :: cs from rfl]
      rw [splitWsWords_cons_nonws (by decide)]
      unfold prefixScan
      rw [List.length_cons, prefixScanAux_ref_none]
      dsimp only
      rw [ite_self]
    simp only [pr2Step]
    rw [h, if_neg (mk_cons_ne_empty '※' cs), strip_leading_marker_ref]
    cases hkv : keyValueSplit ⟨'※' :: cs⟩ with
    | some pq =>
      obtain ⟨preRaw, postRaw⟩ := pq
      have hpre : ∃ t, preRaw.data = '※' :: t := by
        unfold keyValueSplit at hkv
        rw [show (⟨'※' :: cs⟩ : String).data = '※' :: cs from rfl] at hkv
        rw [kvScan] at hkv
        rw [if_neg (by simp)] at hkv
        rcases kvScan_acc cs ['※'] preRaw postRaw hkv with ⟨t, ht⟩
        exact ⟨t, by simpa using ht⟩
      rcases hpre with ⟨t, ht⟩
      have hnws : isPyWs '※' = false := by decide
      have hstrip : (pyStrip preRaw).data = '※' :: dropEndWhile isPyWs t := by
        unfold pyStrip
        cases preRaw with
        | mk d =>
          simp only at ht
          rw [ht]
          rw [show pyStripL ('※' :: t) = '※' :: dropEndWhile isPyWs t from
            pyStripL_cons_nonws hnws]
      have hu2 := pr1nk_cons_ref (dropEndWhile isPyWs t)
      have hpsd : pyStrip preRaw = ⟨'※' :: dropEndWhile isPyWs t⟩ := by
        cases hp : pyStrip preRaw with
        | mk d =>
          rw [hp] at hstrip
          simp only at hstrip
          rw [hstrip]
      dsimp only
      rw [hpsd, show aliasGet KEY_ALIAS_pr2
        (pr1_normalize_key ⟨'※' :: dropEndWhile isPyWs t⟩) = none from
        aliasGet_ref_none_pr2 hu2]
      exact hrest
    | none =>
      exact hrest
  · simp [junggu_parse, jungguStep, cleanText, removeZW, isZW, zwList, pyStripL,
      dropEndWhile, isPyWs, pyWsList, nbspEntityRepl, initJuState, jungguUnlocked,
      bulletStrip, refExempt, colonSplit, colonChars, jungguDash, jungguBare,
      junggu_normalize_key, nbspToSpace, juDecor, auto_map_key, containsSub,
      containsSubL, List.isPrefixOf, setField, jungguAppend, pyStrip, juBullets,
      lookaheadOk, isHangulSyl, dashMatch, dashChars, isHangulOrWs, dropSemi]

/-- C4, counterexample: junggu.py classifies a `※` line that contains a
colon — the line lands in `contact` and nothing is appended to `content`,
although no section was open. -/
theorem claim_C4_counterexample :
    (junggu_parse ["※ 문의 : 02"]).fields "content" = none
    ∧ (junggu_parse ["※ 문의 : 02"]).fields "contact" ≠ none
    ∧ (junggu_parse ["※ 문의 : 02"]).current_section = some "contact" := by
  refine ⟨?_, ?_, ?_⟩ <;>
    simp [junggu_parse, jungguStep, cleanText, removeZW, isZW, zwList, pyStripL,
      dropEndWhile, isPyWs, pyWsList, nbspEntityRepl, initJuState, jungguUnlocked,
      bulletStrip, refExempt, colonSplit, colonChars, jungguDash, jungguBare,
      junggu_normalize_key, nbspToSpace, juDecor, auto_map_key, containsSub,
      containsSubL, List.isPrefixOf, setField, jungguAppend, pyStrip, juBullets,
      lookaheadOk, isHangulSyl, dashMatch, dashChars, isHangulOrWs, dropSemi]

/-- Witness for `claim_C4` at a concrete reference line. -/
theorem claim_C4_witness :
    pr2Step initPrState "※ 참고 문장"
      = ⟨append_field initPrState.fields (initPrState.current_section.getD "content")
          ⟨'※' :: " 참고 문장".data⟩, initPrState.current_section⟩ :=
  claim_C4.1 initPrState "※ 참고 문장" " 참고 문장".data (by decide)

/-! ## Claim C1 -/

/-- The iterated form of the locked-branch append (junggu.py line 191):
each line that survives cleaning is joined onto the accumulated value with
`f"{old} / {text}".strip(" /")`. -/
def appendRun (v : Option String) : List String → Option String
  | [] => v
  | raw :: rs =>
    match cleanText raw with
    | none => appendRun v rs
    | some text => appendRun (some (jungguAppend v text)) rs

theorem jungguStep_locked_append (st : JuState) (raw text : String)
    (hlock : st.locked_section = some "method")
    (hct : cleanText raw = some text)
    (hlc : lockedCandidate text = none ∨ lockedCandidate text = some "method") :
    jungguStep st raw
      = { st with fields := setField st.fields "method" (jungguAppend (st.fields "method") text) } := by
  rw [jungguStep, hct]
  dsimp only
  rw [hlock]
  dsimp only
  rcases hlc with h | h
  · rw [h]
  · rw [h]
    dsimp only
    rw [if_neg (fun hcon => hcon rfl)]

theorem locked_run (rs : List String) :
    ∀ (st : JuState), st.locked_section = some "method" →
    (∀ raw ∈ rs, ∀ text, cleanText raw = some text →
      lockedCandidate text = none ∨ lockedCandidate text = some "method") →
    (rs.foldl jungguStep st).locked_section = some "method"
    ∧ (rs.foldl jungguStep st).current_section = st.current_section
    ∧ (rs.foldl jungguStep st).fields "method" = appendRun (st.fields "method") rs
    ∧ ∀ k, k ≠ "method" → (rs.foldl jungguStep st).fields k = st.fields k := by
  induction rs with
  | nil =>
    intro st hlock hall
    exact ⟨hlock, rfl, rfl, fun k hk => rfl⟩
  | cons raw rs ih =>
    intro st hlock hall
    rw [List.foldl_cons]
    cases hct : cleanText raw with
    | none =>
      have hstep : jungguStep st raw = st := by
        rw [jungguStep, hct]
      rw [hstep]
      have h := ih st hlock (fun r hr => hall r (List.mem_cons_of_mem _ hr))
      refine ⟨h.1, h.2.1, ?_, h.2.2.2⟩
      rw [h.2.2.1, appendRun, hct]
    | some text =>
      have hlc := hall raw (List.mem_cons_self _ _) text hct
      rw [jungguStep_locked_append st raw text hlock hct hlc]
      have h := ih { st with fields := setField st.fields "method" (jungguAppend (st.fields "method") text) }
        hlock (fun r hr => hall r (List.mem_cons_of_mem _ hr))
      refine ⟨h.1, h.2.1, ?_, ?_⟩
      · rw [h.2.2.1, appendRun, hct]
        dsimp only
        simp [setField]
      · intro k hk
        rw [h.2.2.2 k hk]
        dsimp only
        simp only [setField]
        rw [if_neg hk]

theorem jungguBare_locked (st : JuState) (text stripped : String) :
    (jungguBare st text stripped).locked_section = st.locked_section
    ∨ (jungguBare st text stripped).locked_section = none
    ∨ (jungguBare st text stripped).locked_section = some "method" := by
  rw [jungguBare]
  cases h : auto_map_key (junggu_normalize_key stripped) with
  | none => left; rfl
  | some mapped =>
    dsimp only
    by_cases hm : mapped = "method"
    · right; right; rw [if_pos hm]
    · right; left; rw [if_neg hm]

theorem jungguDash_locked (st : JuState) (text stripped : String) :
    (jungguDash st text stripped).locked_section = st.locked_section
    ∨ (jungguDash st text stripped).locked_section = none
    ∨ (jungguDash st text stripped).locked_section = some "method" := by
  rw [jungguDash]
  cases hd : dashMatch stripped with
  | none => exact jungguBare_locked st text stripped
  | some kv =>
    obtain ⟨key, val⟩ := kv
    dsimp only
    cases h : auto_map_key (junggu_normalize_key key) with
    | none => exact jungguBare_locked st text stripped
    | some mapped =>
      dsimp only
      by_cases hm : mapped = "method"
      · right; right; rw [if_pos hm]
      · right; left; rw [if_neg hm]

theorem jungguUnlocked_locked (st : JuState) (text : String) :
    (jungguUnlocked st text).locked_section = st.locked_section
    ∨ (jungguUnlocked st text).locked_section = none
    ∨ (jungguUnlocked st text).locked_section = some "method" := by
  rw [jungguUnlocked]
  cases hc : colonSplit (bulletStrip text) with
  | none => exact jungguDash_locked st text (bulletStrip text)
  | some kv =>
    obtain ⟨key, val⟩ := kv
    dsimp only
    cases h : auto_map_key (junggu_normalize_key key) with
    | none => exact jungguDash_locked st text (bulletStrip text)
    | some mapped =>
      dsimp only
      by_cases hm : mapped = "method"
      · right; right; rw [if_pos hm]
      · right; left; rw [if_neg hm]

theorem jungguStep_locked_opts (st : JuState) (raw : String)
    (h : st.locked_section = none ∨ st.locked_section = some "method") :
    (jungguStep st raw).locked_section = none
    ∨ (jungguStep st raw).locked_section = some "method" := by
  rw [jungguStep]
  cases hct : cleanText raw with
  | none => exact h
  | some text =>
    dsimp only
    rcases h with h | h
    · rw [h]
      dsimp only
      rcases jungguUnlocked_locked st text with h2 | h2 | h2
      · left; rw [h2, h]
      · left; exact h2
      · right; exact h2
    · rw [h]
      dsimp only
      cases hlc : lockedCandidate text with
      | none =>
        dsimp only
        right
        rfl
      | some k =>
        dsimp only
        by_cases hk : k ≠ "method"
        · rw [if_pos hk]
          left
          rfl
        · rw [if_neg hk]
          right
          rfl

theorem junggu_locked_fold (lines : List String) :
    ∀ st : JuState, st.locked_section = none ∨ st.locked_section = some "method" →
    ((lines.foldl jungguStep st).locked_section = none
     ∨ (lines.foldl jungguStep st).locked_section = some "method") := by
  induction lines with
  | nil =>
    intro st h
    exact h
  | cons raw rs ih =>
    intro st h
    rw [List.foldl_cons]
    exact ih _ (jungguStep_locked_opts st raw h)

theorem jungguStep_unlock (st : JuState) (raw text k : String)
    (hlock : st.locked_section = some "method")
    (hct : cleanText raw = some text)
    (hlc : lockedCandidate text = some k) (hk : k ≠ "method") :
    jungguStep st raw
      = ⟨setField st.fields k (jungguAppend (st.fields k) (unlockVal text)),
         some k, none⟩ := by
  rw [jungguStep, hct]
  dsimp only
  rw [hlock]
  dsimp only
  rw [hlc]
  dsimp only
  rw [if_pos hk]

/-- C1: locking invariant of junggu.py's field accumulator.  (i) Only
`method` ever locks: after processing any detail-line sequence the locked
section is `none` or `"method"` — at most one section is locked.  (ii) Once
`method` is locked, every subsequent line that survives cleaning and whose
stripped candidate key does not classify to a key different from `method`
is appended to the `method` field (the append chain `appendRun`), with the
open section and every other field untouched.  (iii) A line whose candidate
key classifies to a canonical key `k ≠ "method"` unlocks: the section
switches to `k`, the lock clears, and the value portion after the first
delimiter is appended to `k`. -/
theorem claim_C1 :
    (∀ lines : List String, (junggu_parse lines).locked_section = none
      ∨ (junggu_parse lines).locked_section = some "method")
    ∧ (∀ (st : JuState) (rs : List String),
        st.locked_section = some "method" →
        (∀ raw ∈ rs, ∀ text, cleanText raw = some text →
          lockedCandidate text = none ∨ lockedCandidate text = some "method") →
        (rs.foldl jungguStep st).locked_section = some "method"
        ∧ (rs.foldl jungguStep st).current_section = st.current_section
        ∧ (rs.foldl jungguStep st).fields "method" = appendRun (st.fields "method") rs
        ∧ ∀ k, k ≠ "method" → (rs.foldl jungguStep st).fields k = st.fields k)
    ∧ (∀ (st : JuState) (raw text k : String),
        st.locked_section = some "method" →
        cleanText raw = some text →
        lockedCandidate text = some k → k ≠ "method" →
        jungguStep st raw
          = ⟨setField st.fields k (jungguAppend (st.fields k) (unlockVal text)),
             some k, none⟩) :=
  ⟨fun lines => junggu_locked_fold lines initJuState (Or.inl rfl),
   fun st rs h1 h2 => locked_run rs st h1 h2,
   fun st raw text k h1 h2 h3 h4 => jungguStep_unlock st raw text k h1 h2 h3 h4⟩

/-- Witness for `claim_C1`: a locked state stays locked on `method` and
appends the body line `1. 온라인 접수` there, and the line `문의 : 02-123`
unlocks to `contact`. -/
theorem claim_C1_witness :
    ((["1. 온라인 접수"].foldl jungguStep
        (⟨fun _ => none, some "method", some "method"⟩ : JuState)).locked_section
          = some "method"
      ∧ (["1. 온라인 접수"].foldl jungguStep
          (⟨fun _ => none, some "method", some "method"⟩ : JuState)).current_section
          = some "method"
      ∧ (["1. 온라인 접수"].foldl jungguStep
          (⟨fun _ => none, some "method", some "method"⟩ : JuState)).fields "method"
          = appendRun none ["1. 온라인 접수"]
      ∧ ∀ k, k ≠ "method" →
          (["1. 온라인 접수"].foldl jungguStep
            (⟨fun _ => none, some "method", some "method"⟩ : JuState)).fields k = none)
    ∧ jungguStep (⟨fun _ => none, some "method", some "method"⟩ : JuState) "문의 : 02-123"
        = ⟨setField (fun _ => none) "contact"
            (jungguAppend none (unlockVal "문의 : 02-123")), some "contact", none⟩ := by
  constructor
  · exact claim_C1.2.1 (⟨fun _ => none, some "method", some "method"⟩ : JuState)
      ["1. 온라인 접수"] rfl
      (by
        intro raw hraw text hct
        rw [List.mem_singleton] at hraw
        subst hraw
        rw [show cleanText "1. 온라인 접수" = some "1. 온라인 접수" from by
          simp [cleanText, removeZW, isZW, zwList, pyStripL, dropEndWhile,
            isPyWs, pyWsList, nbspEntityRepl, dropSemi, List.isPrefixOf]] at hct
        injection hct with he
        subst he
        left
        decide)
  · exact claim_C1.2.2 (⟨fun _ => none, some "method", some "method"⟩ : JuState)
      "문의 : 02-123" "문의 : 02-123" "contact" rfl
      (by
        simp [cleanText, removeZW, isZW, zwList, pyStripL, dropEndWhile,
          isPyWs, pyWsList, nbspEntityRepl, dropSemi, List.isPrefixOf])
      (by decide) (by decide)

end OnKorea
